import Mathlib

/-!
# Kash: a simple command line shell

A shallow embedding of `src/kash.c`.

* C strings live in a byte buffer (`List Char`); a pointer is an index into
  it and the string denoted by a pointer runs up to the first NUL. A `char`
  is a `Char`: the program only compares bytes with NUL, the newline and the
  four delimiters.
* `strtok`, `strspn`, `strcspn` follow the C library: `strtok` keeps a saved
  position and overwrites the delimiter that ends a token with NUL.
* The token array is a list of slots with a bounds-checked store.
* `int` values (`length`, `capacity`) are natural numbers; `malloc` and
  `realloc` are taken to succeed.
* The operating system (chdir, fork, execvp, waitpid, read) is an explicit
  oracle and the process state is threaded through every function.
* The stream `stdin` is a buffer filled by `read` at the offset of the input,
  which a forked child shares with the shell. A child that fails to launch
  its program ends by `exit(1)`, which moves that offset back by the
  number of bytes left in its copy of the buffer, as the GNU C library
  does. A program launched with success is taken to leave the input alone.
* Standard output and standard error hold what the process itself has
  written through `printf`, `fprintf` and `perror`.
-/

namespace Kash

/-! ## C strings -/

/-- The terminating byte of a C string. -/
def NUL : Char := Char.ofNat 0

/-- The byte at index `i` of a buffer. -/
def peek (mem : List Char) (i : Nat) : Char := mem.getD i NUL

/-- The C string that starts at the head of a buffer: the bytes before the first NUL. -/
def c_string (buf : List Char) : List Char := buf.takeWhile (fun c => c != NUL)

/-- The C string a pointer `p` into the buffer `mem` denotes. -/
def c_string_at (mem : List Char) (p : Nat) : List Char := c_string (mem.drop p)

/-- Length of the initial segment of the string at `s` made of bytes in `accept`. -/
def strspn (mem : List Char) (s : Nat) (accept : List Char) : Nat :=
  ((mem.drop s).takeWhile (fun c => c != NUL && accept.contains c)).length

/-- Length of the initial segment of the string at `s` made of bytes not in `reject`. -/
def strcspn (mem : List Char) (s : Nat) (reject : List Char) : Nat :=
  ((mem.drop s).takeWhile (fun c => c != NUL && !reject.contains c)).length

/-- The state `strtok` leaves behind: the buffer and the saved position. -/
structure StrtokState where
  mem : List Char
  save : Nat
deriving DecidableEq, Repr

/-- One call `strtok(s, delim)`; `s = none` is the call `strtok(NULL, delim)`, which
resumes at the saved position. Returns the token pointer (`none` for `NULL`). -/
def strtok (st : StrtokState) (s : Option Nat) (delim : List Char) :
    Option Nat × StrtokState :=
  let s0 := s.getD st.save
  if peek st.mem s0 = NUL then (none, { st with save := s0 })
  else
    let s1 := s0 + strspn st.mem s0 delim
    if peek st.mem s1 = NUL then (none, { st with save := s1 })
    else
      let e := s1 + strcspn st.mem s1 delim
      if peek st.mem e = NUL then (some s1, { st with save := e })
      else (some s1, { mem := st.mem.set e NUL, save := e + 1 })

/-! ## The token array -/

/-- One cell of the `char **tokens` array. -/
inductive Slot where
  | uninit
  | null
  | ptr (p : Nat)
deriving DecidableEq, Repr

/-- A fresh array of `n` cells with indeterminate contents. -/
def malloc (n : Nat) : List Slot := List.replicate n Slot.uninit

/-- Resize an array to `n` cells, keeping the old contents. -/
def realloc (a : List Slot) (n : Nat) : List Slot :=
  a.take n ++ List.replicate (n - a.length) Slot.uninit

/-- The assignment `a[i] = v`; `none` when `i` is outside the array. -/
def store (a : List Slot) (i : Nat) (v : Slot) : Option (List Slot) :=
  if i < a.length then some (a.set i v) else none

/-! ## kash_split_line -/

/-- The delimiter set `" \t\r\n"`. -/
def delimiters : List Char := [' ', '\t', '\r', '\n']

/-- The local variables of `kash_split_line` at the head of its loop. -/
structure SplitState where
  tok : StrtokState
  tokens : List Slot
  length : Nat
  capacity : Nat
  token : Option Nat
deriving DecidableEq, Repr

/-- The state before the first test of the loop condition. -/
def split_init (line : List Char) : SplitState :=
  let r := strtok { mem := line ++ [NUL], save := 0 } (some 0) delimiters
  { tok := r.2, tokens := malloc 32, length := 0, capacity := 32, token := r.1 }

/-- The loop body for a token `p`; `none` when the store is out of bounds. -/
def split_body (st : SplitState) (p : Nat) : Option SplitState :=
  match store st.tokens st.length (Slot.ptr p) with
  | none => none
  | some tokens1 =>
    let length := st.length + 1
    let capacity := if length ≥ st.capacity then st.capacity * 3 / 2 else st.capacity
    let tokens2 := if length ≥ st.capacity then realloc tokens1 capacity else tokens1
    let r := strtok st.tok none delimiters
    some { tok := r.2, tokens := tokens2, length := length, capacity := capacity, token := r.1 }

/-- The loop `while (token != NULL)`, with a bound on the number of iterations. -/
def split_loop : Nat → SplitState → Option SplitState
  | fuel, st =>
    match st.token with
    | none => some st
    | some p =>
      match fuel with
      | 0 => none
      | fuel + 1 =>
        match split_body st p with
        | none => none
        | some st1 => split_loop fuel st1

/-- The function `kash_split_line`: the returned array and the buffer as it leaves it. -/
def kash_split_line (line : List Char) : Option (List Slot × List Char) :=
  match split_loop (line.length + 1) (split_init line) with
  | none => none
  | some st =>
    match store st.tokens st.length Slot.null with
    | none => none
    | some tokens => some (tokens, st.tok.mem)

/-- Read a NULL-terminated pointer array: the pointers before the first `NULL`. -/
def read_argv : List Slot → Option (List Nat)
  | [] => none
  | Slot.uninit :: _ => none
  | Slot.null :: _ => some []
  | Slot.ptr p :: rest => (read_argv rest).map (fun ps => p :: ps)

/-- The token strings `kash_split_line` hands to its caller. -/
def split_tokens (line : List Char) : Option (List (List Char)) :=
  match kash_split_line line with
  | none => none
  | some (tokens, mem) => (read_argv tokens).map (fun ps => ps.map (c_string_at mem))

/-! ## The tokenizer as the specification words it -/

/-- The whitespace characters: space, tab, carriage return, newline. -/
def whitespace : List Char := [' ', '\t', '\r', '\n']

/-- The maximal runs of non-whitespace characters of a text, first to last: the text is
cut at every whitespace character and the empty pieces are dropped. -/
def maximal_runs (s : List Char) : List (List Char) :=
  (s.splitOnP (fun c => whitespace.contains c)).filter (fun t => !t.isEmpty)

/-- The relation between a text and its maximal runs of non-whitespace characters, read
from left to right: a blank text has none; otherwise the text is some whitespace, a
non-empty run free of whitespace, and then either nothing or a whitespace character
followed by a text whose runs are the remaining ones. -/
inductive Runs : List Char → List (List Char) → Prop where
  | blank (ws : List Char) : (∀ c ∈ ws, c ∈ whitespace) → Runs ws []
  | last (ws tok : List Char) : (∀ c ∈ ws, c ∈ whitespace) → tok ≠ [] →
      (∀ c ∈ tok, c ∉ whitespace) → Runs (ws ++ tok) [tok]
  | token (ws tok : List Char) (d : Char) (rest : List Char) (toks : List (List Char)) :
      (∀ c ∈ ws, c ∈ whitespace) → tok ≠ [] → (∀ c ∈ tok, c ∉ whitespace) →
      d ∈ whitespace → Runs rest toks → Runs (ws ++ (tok ++ d :: rest)) (tok :: toks)

/-- The tokens joined with a single space between consecutive tokens. -/
def join_spaces : List (List Char) → List Char
  | [] => []
  | [t] => t
  | t :: ts => t ++ ' ' :: join_spaces ts

/-- The states the loop of `kash_split_line` passes through at its head, the state at
loop exit included, when splitting `line`. -/
inductive Reachable (line : List Char) : SplitState → Prop where
  | init : Reachable line (split_init line)
  | step (st st1 : SplitState) (p : Nat) : Reachable line st → st.token = some p →
      split_body st p = some st1 → Reachable line st1

/-! ## The process and the operating system -/

/-- What `waitpid` reports about a child. -/
inductive Status where
  | exited (code : Nat)
  | signaled (sig : Nat)
  | stopped (sig : Nat)
deriving DecidableEq, Repr

/-- The child terminated normally. -/
def WIFEXITED : Status → Bool
  | Status.exited _ => true
  | _ => false

/-- The child was terminated by a signal. -/
def WIFSIGNALED : Status → Bool
  | Status.signaled _ => true
  | _ => false

/-- Calls the shell makes, recorded in order (a ghost trace; not program state). -/
inductive Event where
  | exec (args : List (List Char))
  | builtin (name : List Char) (args : List (List Char))
  | fork (ret : Int)
  | execvp (file : List Char) (args : List (List Char))
  | waitpid (status : Status)
deriving DecidableEq, Repr

/-- The state of a shell process. -/
structure World where
  /-- The bytes held in the buffer of the stream `stdin` and not yet consumed. -/
  stdin : List Char
  /-- The bytes of the input source (a file, a pipe, a terminal), from its start. -/
  file : List Char
  /-- The offset of the open file description of the input: where the next `read`
  starts. A forked child shares it with the shell. -/
  offset : Nat
  /-- Whether the input source is seekable (a regular file) or not (a pipe, a terminal). -/
  seekable : Bool
  cwd : List Char
  stdout : List (List Char)
  stderr : List (List Char)
  trace : List Event
deriving DecidableEq, Repr

/-- The operating system, as the shell sees it. -/
structure OS where
  /-- Outcome of `chdir(path)`: the error text, or the new working directory. -/
  chdir : World → List Char → Except (List Char) (List Char)
  /-- Return value of `fork()`: 0 in the child, a positive pid in the parent,
  negative on failure. -/
  fork : World → Int
  /-- Error text after a failed `fork()`. -/
  fork_error : World → List Char
  /-- Outcome of `execvp(file, args)`: `none` when the program image is replaced,
  otherwise the error text. -/
  execvp : World → List Char → List (List Char) → Option (List Char)
  /-- The status reports successive `waitpid` calls deliver for the child just forked. -/
  waitpid : World → List Status
  /-- Whether the failure of `getline` at the end of the input is a read error (with
  its text) or plain end of input. -/
  read_error : Option (List Char)
  /-- The largest number of bytes the next `read` on the input delivers (the size of the
  stream buffer for a file, what has been typed for a terminal). -/
  read : World → Nat
  /-- A `read` delivers at least one byte unless the input is at its end. -/
  read_pos : ∀ w, 0 < read w

/-- How the execution of a piece of the shell ends. -/
inductive Outcome where
  /-- The function returned to its caller. -/
  | returned (w : World)
  /-- The process called `exit(code)`. -/
  | exited (code : Nat) (w : World)
  /-- The process image was replaced by `execvp`. -/
  | replaced (w : World)
  /-- The process waits for ever: no further status report arrives. -/
  | blocked (w : World)
  /-- Undefined behaviour (a `NULL` dereference or a store outside the array). -/
  | undefined (w : World)
deriving DecidableEq, Repr

/-- The process state an outcome carries. -/
def Outcome.world : Outcome → World
  | Outcome.returned w => w
  | Outcome.exited _ w => w
  | Outcome.replaced w => w
  | Outcome.blocked w => w
  | Outcome.undefined w => w

/-- The input the process has not consumed yet: what its stream buffer holds, then what
the input source holds from the shared offset on. -/
def World.unread (w : World) : List Char := w.stdin ++ w.file.drop w.offset

/-- Append an event to the ghost trace. -/
def World.log (w : World) (e : Event) : World := { w with trace := w.trace ++ [e] }

/-- Write to standard output. -/
def World.printf (w : World) (text : List Char) : World :=
  { w with stdout := w.stdout ++ [text] }

/-- Write to standard error. -/
def World.eprintf (w : World) (text : List Char) : World :=
  { w with stderr := w.stderr ++ [text] }

/-- The call `perror(s)` when the error text for `errno` is `msg`. -/
def World.perror (w : World) (s msg : List Char) : World :=
  w.eprintf (s ++ ": ".toList ++ msg ++ "\n".toList)

/-- What `exit` does to the stream `stdin` before the process ends, as the GNU C library
does it: when the buffer still holds unread bytes, the offset of the input is moved back by
their number, relative to where it stands (`lseek(0, -n, SEEK_CUR)`). The seek fails, and
changes nothing, on an input that is not seekable or when it would pass the start. -/
def World.sync (w : World) : World :=
  if w.seekable && !w.stdin.isEmpty && decide (w.stdin.length ≤ w.offset) then
    { w with offset := w.offset - w.stdin.length }
  else w

/-- The call `exit(code)`: the streams are flushed, then the process ends. -/
def World.exit (w : World) (code : Nat) : Outcome := Outcome.exited code w.sync

/-- The shell after its forked child has run to the given outcome: the child had its own
copy of the process state, and what it leaves behind in the shell is the offset of the
input, which the two share. -/
def World.after_child (w : World) (child : Outcome) : World :=
  { w with offset := child.world.offset }

/-- The comparison `strcmp(a, b)`; only whether it is zero matters here. -/
def strcmp (a b : List Char) : Int := if a = b then 0 else 1

/-! ## Built in commands -/

/-- Exit the shell. -/
def kash_exit (_os : OS) (_args : List (List Char)) (w : World) : Outcome :=
  w.exit 0

/-- Change the working directory. -/
def kash_cd (os : OS) (args : List (List Char)) (w : World) : Outcome :=
  match args.get? 1 with
  | none => Outcome.returned (w.eprintf "kash: cd: missing argument\n".toList)
  | some path =>
    match os.chdir w path with
    | Except.ok dir => Outcome.returned { w with cwd := dir }
    | Except.error msg => Outcome.returned (w.perror "kash: cd".toList msg)

/-- The text `kash_help` prints. -/
def helptext : List Char :=
  ("Kash - the Kinda Aimless Shell. " ++
   "The following commands are built in:\n" ++
   "  cd       Change the working directory.\n" ++
   "  exit     Exit the shell.\n" ++
   "  help     Print this help text.\n").toList

/-- Print the shell's help text. -/
def kash_help (_os : OS) (_args : List (List Char)) (w : World) : Outcome :=
  Outcome.returned (w.printf helptext)

/-- A builtin associates a command name with a handler function. -/
structure builtin where
  name : List Char
  func : OS → List (List Char) → World → Outcome

/-- Array of built in commands. -/
def builtins : List builtin :=
  [ { name := "help".toList, func := kash_help },
    { name := "exit".toList, func := kash_exit },
    { name := "cd".toList, func := kash_cd } ]

/-- Returns the number of registered commands. -/
def kash_num_builtins : Nat := builtins.length

/-! ## Process/command launcher -/

/-- The `for` loop of `kash_exec` over the entries `bs` still to be compared: the outcome
of the first handler whose name equals `args[0]`, or `none` when no name matches. -/
def exec_builtin (os : OS) (args : List (List Char)) (arg0 : List Char) (w : World) :
    List builtin → Option Outcome
  | [] => none
  | b :: bs =>
    if strcmp arg0 b.name = 0 then some (b.func os args (w.log (Event.builtin b.name args)))
    else exec_builtin os args arg0 w bs

/-- The loop `do waitpid(...) while (!WIFEXITED(status) && !WIFSIGNALED(status))` over the
reports still to come. -/
def wait_loop : List Status → World → Outcome
  | [], w => Outcome.blocked w
  | status :: reports, w =>
    if !WIFEXITED status && !WIFSIGNALED status then
      wait_loop reports (w.log (Event.waitpid status))
    else Outcome.returned (w.log (Event.waitpid status))

/-- The branch `child_pid == 0` of `kash_exec`, run by the forked child on its copy of the
process state: `execvp`, and when that fails `perror("kash")` and `exit(1)`. -/
def exec_child (os : OS) (arg0 : List Char) (args : List (List Char)) (w : World) : Outcome :=
  match os.execvp (w.log (Event.execvp arg0 args)) arg0 args with
  | none => Outcome.replaced (w.log (Event.execvp arg0 args))
  | some msg => ((w.log (Event.execvp arg0 args)).perror "kash".toList msg).exit 1

/-- The function `kash_exec`. In the parent the wait goes on in the state the child leaves
behind. -/
def kash_exec (os : OS) (args : List (List Char)) (w : World) : Outcome :=
  let w0 := w.log (Event.exec args)
  match args with
  | [] => Outcome.undefined w0
  | arg0 :: _ =>
    match exec_builtin os args arg0 w0 builtins with
    | some o => o
    | none =>
      let child_pid := os.fork w0
      let w1 := w0.log (Event.fork child_pid)
      if child_pid = 0 then exec_child os arg0 args w1
      else if child_pid > 0 then
        wait_loop (os.waitpid w1) (w1.after_child (exec_child os arg0 args w1))
      else Outcome.returned (w1.perror "kash".toList (os.fork_error w0))

/-! ## Input -/

/-- What the library call `getline` delivers from an unread input: the first line, with
its newline when there is one, and the input left; `none` when the input is at its end. -/
def getline (input : List Char) : Option (List Char × List Char) :=
  match input with
  | [] => none
  | _ =>
    match input.dropWhile (fun c => c != '\n') with
    | [] => some (input, [])
    | nl :: rest => some (input.takeWhile (fun c => c != '\n') ++ [nl], rest)

/-- The library call `getline` on the buffered stream `stdin`, with a bound on the number
of `read` calls: bytes are taken from the buffer up to a newline; when the buffer holds
none, it is consumed whole and filled again by a `read` at the shared offset, which moves
the offset on. `acc` is the part of the line collected so far. The result is the line
(`none` when there is nothing to read: the return value -1) and the new state. -/
def getline_loop (os : OS) : Nat → World → List Char → Option (Option (List Char) × World)
  | 0, _, _ => none
  | fuel + 1, w, acc =>
    match w.stdin.dropWhile (fun c => c != '\n') with
    | nl :: rest =>
      some (some (acc ++ w.stdin.takeWhile (fun c => c != '\n') ++ [nl]), { w with stdin := rest })
    | [] =>
      match (w.file.drop w.offset).take (os.read w) with
      | [] =>
        if acc ++ w.stdin = [] then some (none, w)
        else some (some (acc ++ w.stdin), { w with stdin := [] })
      | b :: block =>
        getline_loop os fuel
          { w with stdin := b :: block, offset := w.offset + (b :: block).length }
          (acc ++ w.stdin)

/-- The call `getline(&line, &buflen, stdin)`: every `read` but the last delivers at
least one byte, so one more `read` than there are bytes left in the input is enough. -/
def stdin_getline (os : OS) (w : World) : Option (Option (List Char) × World) :=
  getline_loop os (w.file.length - w.offset + 1) w []

/-- The function `kash_read_line`: the line buffer, or the exit of the process. -/
def kash_read_line (os : OS) (w : World) : Except Outcome (List Char × World) :=
  match stdin_getline os w with
  | none => Except.error (Outcome.blocked w)
  | some (none, w1) =>
    match os.read_error with
    | some msg => Except.error ((w1.perror "kash".toList msg).exit 1)
    | none => Except.error (w1.exit 1)
  | some (some line, w1) => Except.ok (line, w1)

/-! ## Entry point -/

/-- One pass through the body of the loop of `main`; `returned` means the loop goes on. -/
def main_iteration (os : OS) (w : World) : Outcome :=
  match kash_read_line os (w.printf "> ".toList) with
  | Except.error o => o
  | Except.ok (line, w1) =>
    match split_tokens line with
    | none => Outcome.undefined w1
    | some args => if args ≠ [] then kash_exec os args w1 else Outcome.returned w1

/-- The function `main`, whose loop `while (true)` has no exit of its own, run for at most
`n` passes: `returned w` means that after `n` passes the loop is still running, in the
state `w`; any other outcome is how the process ended within `n` passes. -/
def main : Nat → OS → World → Outcome
  | 0, _, w => Outcome.returned w
  | n + 1, os, w =>
    match main_iteration os w with
    | Outcome.returned w1 => main n os w1
    | o => o

/-! ## A concrete system for the examples -/

/-- An operating system in which every directory change succeeds, `fork` returns the
pid 1 to the parent, every program is found, each child exits with status 0 at its first
report and a `read` delivers up to 4096 bytes. -/
def demo_os : OS :=
  { chdir := fun _ path => Except.ok path,
    fork := fun _ => 1,
    fork_error := fun _ => [],
    execvp := fun _ _ _ => none,
    waitpid := fun _ => [Status.exited 0],
    read_error := none,
    read := fun _ => 4096,
    read_pos := fun _ => (by decide : 0 < 4096) }

/-- A fresh shell process in the directory `/` whose input is a pipe that delivers the
given bytes. -/
def demo_world (input : List Char) : World :=
  { stdin := [], file := input, offset := 0, seekable := false,
    cwd := "/".toList, stdout := [], stderr := [], trace := [] }

/-- A fresh shell process in the directory `/` whose input is a regular file with the
given contents (the shell started as `kash < file`). -/
def file_world (input : List Char) : World :=
  { demo_world input with seekable := true }

/-- An operating system like `demo_os` in which each child is reported stopped twice
before it is reported killed by signal 9 (and stopped once more after that). -/
def stopping_os : OS :=
  { demo_os with
    waitpid := fun _ =>
      [Status.stopped 19, Status.stopped 19, Status.signaled 9, Status.stopped 19] }

/-- An operating system like `demo_os` in which no directory change succeeds. -/
def failing_os : OS :=
  { demo_os with chdir := fun _ _ => Except.error "No such file or directory".toList }

/-- An operating system like `demo_os` in which no program is found: `execvp` fails in
every child, which then exits with status 1. -/
def notfound_os : OS :=
  { demo_os with
    execvp := fun _ _ _ => some "No such file or directory".toList,
    waitpid := fun _ => [Status.exited 1] }

/-! ## Notions used to state the claims -/

/-- The names in the builtin registry. -/
def builtin_names : List (List Char) := builtins.map (fun b => b.name)

/-- A status that ends the wait: exited normally or terminated by a signal. -/
def terminal (s : Status) : Bool := WIFEXITED s || WIFSIGNALED s

/-- The events that are status reports observed by `waitpid`. -/
def observed : List Event → List Status
  | [] => []
  | Event.waitpid s :: es => s :: observed es
  | _ :: es => observed es

/-- The vectors `kash_exec` was entered with, in order. -/
def dispatched : List Event → List (List (List Char))
  | [] => []
  | Event.exec args :: es => args :: dispatched es
  | _ :: es => dispatched es

/-- The number of prompts written so far. -/
def prompts (w : World) : Nat := w.stdout.count "> ".toList

/-- The argument vector of a recorded call of `kash_exec` is non-empty and so is each of
its tokens; other events are not constrained. -/
def exec_args_ok : Event → Prop
  | Event.exec args => args ≠ [] ∧ ∀ t ∈ args, t ≠ []
  | _ => True

/-- The first token of a line, as C reads the line (up to a NUL byte if it has one). -/
def first_token (line : List Char) : Option (List Char) :=
  (maximal_runs (c_string line)).head?

/-- The first token of the line is `exit`. -/
def is_exit_line (line : List Char) : Bool :=
  decide (first_token line = some "exit".toList)

/-- A line that ends with its newline and has no other newline. -/
def complete_line (l : List Char) : Bool :=
  decide (l.getLast? = some '\n') && !(l.dropLast.contains '\n')

/-- A sequence of input lines: every line is complete, except that the last one may lack
its newline (the input then ends inside a line); no line is empty. -/
def input_lines_ok : List (List Char) → Bool
  | [] => true
  | [l] => !l.isEmpty && !(l.dropLast.contains '\n')
  | l :: ls => complete_line l && input_lines_ok ls

/-! ## Invariants used in the proofs -/

/-- The array holds the pointers `ptrs` in its first `length` cells and has room for
one more store. -/
def ArrOk (st : SplitState) (ptrs : List Nat) : Prop :=
  ∃ pad, st.tokens = ptrs.map Slot.ptr ++ pad ∧ st.length = ptrs.length ∧
    st.length < st.capacity ∧ st.tokens.length = st.capacity ∧ 2 ≤ st.capacity

/-- The states of a shell reading the regular file `nope1`, `nope2`, `nope3` (one name per
line) in which a pass of the loop begins: before a `read` at offset 0, after the first
line and after the second line, with the offset where the children have left it. -/
def in_reread_cycle (w : World) : Prop :=
  w.file = "nope1\nnope2\nnope3\n".toList ∧ w.seekable = true ∧
  ((w.stdin = [] ∧ w.offset = 0) ∨
   (w.stdin = "nope2\nnope3\n".toList ∧ w.offset = 6) ∨
   (w.stdin = "nope3\n".toList ∧ w.offset = 0))

/-! ## Facts about C strings and strtok -/

theorem mem_delimiters_ne_NUL {c : Char} (h : c ∈ delimiters) : c ≠ NUL := by
  intro hc
  subst hc
  revert h
  decide

theorem peek_append_right (D X : List Char) : peek (D ++ X) D.length = X.headD NUL := by
  unfold peek
  rw [List.getD_eq_getElem?_getD, List.getElem?_append_right (Nat.le_refl _)]
  cases X with
  | nil => simp
  | cons x X => simp

theorem strspn_shape (D ws : List Char) (x : Char) (X : List Char)
    (hws : ∀ c ∈ ws, c ∈ delimiters) (hx : x = NUL ∨ x ∉ delimiters) :
    strspn (D ++ (ws ++ x :: X)) D.length delimiters = ws.length := by
  unfold strspn
  rw [List.drop_left, List.takeWhile_append_of_pos]
  · rw [List.takeWhile_cons_of_neg]
    · simp
    · rcases hx with hx | hx
      · simp [hx]
      · simp [hx]
  · intro c hc
    have h1 := hws c hc
    have h2 := mem_delimiters_ne_NUL h1
    simp [h1, h2]

theorem strcspn_shape (D tok : List Char) (x : Char) (X : List Char)
    (htok : ∀ c ∈ tok, c ∉ delimiters ∧ c ≠ NUL) (hx : x = NUL ∨ x ∈ delimiters) :
    strcspn (D ++ (tok ++ x :: X)) D.length delimiters = tok.length := by
  unfold strcspn
  rw [List.drop_left, List.takeWhile_append_of_pos]
  · rw [List.takeWhile_cons_of_neg]
    · simp
    · rcases hx with hx | hx
      · simp [hx]
      · simp [hx]
  · intro c hc
    have h1 := htok c hc
    simp [h1.1, h1.2]

theorem peek_append_append (D ws X : List Char) :
    peek (D ++ (ws ++ X)) (D.length + ws.length) = X.headD NUL := by
  rw [← List.append_assoc, ← List.length_append, peek_append_right]

theorem strtok_none_shape (D ws C : List Char) (hws : ∀ c ∈ ws, c ∈ delimiters) :
    strtok { mem := D ++ (ws ++ NUL :: C), save := D.length } none delimiters
      = (none, { mem := D ++ (ws ++ NUL :: C), save := D.length + ws.length }) := by
  unfold strtok
  simp only [Option.getD_none]
  cases ws with
  | nil => simp [peek_append_right]
  | cons w ws =>
    have hw : w ≠ NUL := mem_delimiters_ne_NUL (hws w (List.mem_cons_self _ _))
    rw [if_neg (by rw [peek_append_right]; simpa using hw)]
    rw [strspn_shape D (w :: ws) NUL C hws (Or.inl rfl), peek_append_append]
    simp

theorem strtok_some_shape (D ws tok : List Char) (x : Char) (C : List Char)
    (hws : ∀ c ∈ ws, c ∈ delimiters) (hne : tok ≠ [])
    (htok : ∀ c ∈ tok, c ∉ delimiters ∧ c ≠ NUL) (hx : x = NUL ∨ x ∈ delimiters) :
    strtok { mem := D ++ (ws ++ (tok ++ x :: C)), save := D.length } none delimiters
      = (some (D.length + ws.length),
          if x = NUL then
            { mem := D ++ (ws ++ (tok ++ x :: C)), save := D.length + ws.length + tok.length }
          else
            { mem := D ++ (ws ++ (tok ++ NUL :: C)),
              save := D.length + ws.length + tok.length + 1 }) := by
  obtain ⟨t, tok1, rfl⟩ := List.exists_cons_of_ne_nil hne
  have ht := htok t (List.mem_cons_self _ _)
  have hfirst : peek (D ++ (ws ++ (t :: tok1 ++ x :: C))) D.length ≠ NUL := by
    rw [peek_append_right]
    cases ws with
    | nil => simpa using ht.2
    | cons w ws =>
      simpa using mem_delimiters_ne_NUL (hws w (List.mem_cons_self _ _))
  have hspn : strspn (D ++ (ws ++ (t :: tok1 ++ x :: C))) D.length delimiters = ws.length :=
    strspn_shape D ws t (tok1 ++ x :: C) hws (Or.inr ht.1)
  have hsecond : peek (D ++ (ws ++ (t :: tok1 ++ x :: C))) (D.length + ws.length) ≠ NUL := by
    rw [peek_append_append]
    simpa using ht.2
  have hcspn : strcspn (D ++ (ws ++ (t :: tok1 ++ x :: C))) (D.length + ws.length) delimiters
      = (t :: tok1).length := by
    have := strcspn_shape (D ++ ws) (t :: tok1) x C htok hx
    simpa [List.append_assoc] using this
  have hend : peek (D ++ (ws ++ (t :: tok1 ++ x :: C)))
      (D.length + ws.length + (t :: tok1).length) = x := by
    have := peek_append_append (D ++ ws) (t :: tok1) (x :: C)
    simpa [List.append_assoc] using this
  have hset : (D ++ (ws ++ (t :: tok1 ++ x :: C))).set
      (D.length + ws.length + (t :: tok1).length) NUL = D ++ (ws ++ (t :: tok1 ++ NUL :: C)) := by
    have h1 : D ++ (ws ++ (t :: tok1 ++ x :: C)) = (D ++ ws ++ (t :: tok1)) ++ x :: C := by
      simp [List.append_assoc]
    have h2 : D.length + ws.length + (t :: tok1).length = (D ++ ws ++ (t :: tok1)).length := by
      simp [Nat.add_assoc]
    rw [h1, h2, List.set_append_right _ _ (Nat.le_refl _)]
    simp [List.append_assoc]
  unfold strtok
  simp only [Option.getD_none]
  rw [if_neg hfirst]
  rw [hspn, if_neg hsecond]
  rw [hcspn, hend, hset]
  by_cases hxn : x = NUL
  · simp [hxn]
  · simp [hxn]

/-! ## Facts about maximal runs -/

theorem maximal_runs_nil : maximal_runs [] = [] := by
  simp [maximal_runs]

theorem maximal_runs_skip (ws s : List Char) (hws : ∀ c ∈ ws, c ∈ whitespace) :
    maximal_runs (ws ++ s) = maximal_runs s := by
  induction ws with
  | nil => rfl
  | cons w ws ih =>
    have hw : whitespace.contains w = true := by
      simpa using hws w (List.mem_cons_self _ _)
    have ih1 := ih (fun c hc => hws c (List.mem_cons_of_mem _ hc))
    unfold maximal_runs at ih1 ⊢
    rw [List.cons_append, List.splitOnP_cons]
    simp only [hw, if_true]
    rw [List.filter_cons_of_neg (by simp)]
    exact ih1

theorem maximal_runs_single (tok : List Char) (hne : tok ≠ [])
    (htok : ∀ c ∈ tok, c ∉ whitespace) : maximal_runs tok = [tok] := by
  unfold maximal_runs
  rw [List.splitOnP_eq_single]
  · cases tok with
    | nil => exact absurd rfl hne
    | cons t tok => simp
  · intro c hc
    simpa using htok c hc

theorem maximal_runs_token (tok : List Char) (d : Char) (s : List Char) (hne : tok ≠ [])
    (htok : ∀ c ∈ tok, c ∉ whitespace) (hd : d ∈ whitespace) :
    maximal_runs (tok ++ d :: s) = tok :: maximal_runs s := by
  unfold maximal_runs
  rw [List.splitOnP_first _ _ (by intro c hc; simpa using htok c hc) d (by simpa using hd)]
  cases tok with
  | nil => exact absurd rfl hne
  | cons t tok => simp

theorem maximal_runs_blank (s : List Char) (hs : ∀ c ∈ s, c ∈ whitespace) :
    maximal_runs s = [] := by
  have := maximal_runs_skip s [] hs
  simpa [maximal_runs_nil] using this

/-- Every text is blank, or is leading whitespace, a first run and a remainder that is
empty or starts with a whitespace character. -/
theorem text_shape (s : List Char) :
    (∀ c ∈ s, c ∈ whitespace) ∨
    ∃ ws tok rest, s = ws ++ (tok ++ rest) ∧ (∀ c ∈ ws, c ∈ whitespace) ∧ tok ≠ [] ∧
      (∀ c ∈ tok, c ∉ whitespace) ∧
      (rest = [] ∨ ∃ d s3, rest = d :: s3 ∧ d ∈ whitespace) := by
  induction s with
  | nil => left; simp
  | cons a s ih =>
    by_cases ha : a ∈ whitespace
    · rcases ih with h | ⟨ws, tok, rest, hs, hws, hne, htok, hrest⟩
      · left
        intro c hc
        rcases List.mem_cons.mp hc with rfl | hc
        · exact ha
        · exact h c hc
      · right
        refine ⟨a :: ws, tok, rest, by simp [hs], ?_, hne, htok, hrest⟩
        intro c hc
        rcases List.mem_cons.mp hc with rfl | hc
        · exact ha
        · exact hws c hc
    · right
      rcases ih with h | ⟨ws, tok, rest, hs, hws, hne, htok, hrest⟩
      · refine ⟨[], [a], s, by simp, by simp, by simp, by simpa using ha, ?_⟩
        cases s with
        | nil => left; rfl
        | cons d s3 => right; exact ⟨d, s3, rfl, h d (List.mem_cons_self _ _)⟩
      · cases ws with
        | nil =>
          refine ⟨[], a :: tok, rest, by simp [hs], by simp, by simp, ?_, hrest⟩
          intro c hc
          rcases List.mem_cons.mp hc with rfl | hc
          · exact ha
          · exact htok c hc
        | cons w ws =>
          refine ⟨[], [a], w :: (ws ++ (tok ++ rest)), by simp [hs], by simp, by simp,
            by simpa using ha, ?_⟩
          right
          exact ⟨w, ws ++ (tok ++ rest), rfl, hws w (List.mem_cons_self _ _)⟩

/-! ## Reading strings back from the buffer -/

theorem c_string_append_NUL (tok C : List Char) (htok : ∀ c ∈ tok, c ≠ NUL) :
    c_string (tok ++ NUL :: C) = tok := by
  unfold c_string
  rw [List.takeWhile_append_of_pos (by intro c hc; simpa using htok c hc)]
  simp

theorem c_string_at_shape (D tok C : List Char) (htok : ∀ c ∈ tok, c ≠ NUL) :
    c_string_at (D ++ (tok ++ NUL :: C)) D.length = tok := by
  unfold c_string_at
  rw [List.drop_left]
  exact c_string_append_NUL tok C htok

theorem c_string_write (l : List Char) (x : Char) (C : List Char)
    (h : (c_string (l ++ x :: C)).length ≤ l.length) :
    c_string (l ++ NUL :: C) = c_string (l ++ x :: C) := by
  induction l with
  | nil =>
    by_cases hx : x = NUL
    · rw [hx]
    · exfalso
      simp [c_string, hx] at h
  | cons a l ih =>
    by_cases ha : a = NUL
    · simp [c_string, ha]
    · have h1 : (c_string (l ++ x :: C)).length ≤ l.length := by
        simp [c_string, ha] at h
        simpa [c_string] using h
      have := ih h1
      simp only [c_string] at this
      simp [c_string, ha, this]

theorem c_string_at_write (A : List Char) (x : Char) (C : List Char) (p : Nat)
    (h : p + (c_string_at (A ++ x :: C) p).length ≤ A.length) :
    c_string_at (A ++ NUL :: C) p = c_string_at (A ++ x :: C) p := by
  have hp : p ≤ A.length := by omega
  unfold c_string_at at h ⊢
  rw [List.drop_append_of_le_length hp] at h
  rw [List.drop_append_of_le_length hp, List.drop_append_of_le_length hp]
  apply c_string_write
  rw [List.length_drop]
  omega

theorem line_buffer_shape (line : List Char) :
    ∃ C, line ++ [NUL] = c_string line ++ NUL :: C := by
  induction line with
  | nil => exact ⟨[], by simp [c_string]⟩
  | cons a l ih =>
    by_cases ha : a = NUL
    · exact ⟨l ++ [NUL], by simp [c_string, ha]⟩
    · obtain ⟨C, hC⟩ := ih
      refine ⟨C, ?_⟩
      simp only [c_string] at hC
      simp [c_string, ha, hC]

theorem c_string_no_NUL (buf : List Char) : ∀ c ∈ c_string buf, c ≠ NUL := by
  intro c hc
  have := List.mem_takeWhile_imp hc
  simpa using this

/-! ## The token array invariant -/

theorem split_body_spec (st : SplitState) (ptrs : List Nat) (p : Nat) (h : ArrOk st ptrs) :
    ∃ st1, split_body st p = some st1 ∧ ArrOk st1 (ptrs ++ [p]) ∧
      st1.tok = (strtok st.tok none delimiters).2 ∧
      st1.token = (strtok st.tok none delimiters).1 := by
  obtain ⟨pad, htok, hlen, hlt, hcap, h2⟩ := h
  have hpad : pad ≠ [] := by
    intro hp
    rw [htok, hp] at hcap
    simp at hcap
    omega
  obtain ⟨x, pad1, rfl⟩ := List.exists_cons_of_ne_nil hpad
  have hstore : store st.tokens st.length (Slot.ptr p)
      = some ((ptrs ++ [p]).map Slot.ptr ++ pad1) := by
    unfold store
    rw [if_pos (by omega), htok, hlen]
    have : ptrs.length = (ptrs.map Slot.ptr).length := by simp
    rw [this, List.set_append_right _ _ (Nat.le_refl _)]
    simp
  have hlen1 : ((ptrs ++ [p]).map Slot.ptr ++ pad1).length = st.capacity := by
    rw [← hcap, htok]
    simp
  unfold split_body
  rw [hstore]
  by_cases hg : st.length + 1 ≥ st.capacity
  · refine ⟨_, rfl, ?_, rfl, rfl⟩
    simp only [hg, if_true]
    refine ⟨pad1 ++ List.replicate (st.capacity * 3 / 2 - st.capacity) Slot.uninit, ?_, ?_, ?_,
      ?_, ?_⟩
    · unfold realloc
      rw [hlen1, List.take_of_length_le (by rw [hlen1]; omega)]
      simp
    · simp [hlen]
    · show st.length + 1 < st.capacity * 3 / 2
      omega
    · unfold realloc
      rw [hlen1, List.take_of_length_le (by rw [hlen1]; omega)]
      rw [List.length_append, List.length_replicate, hlen1]
      show st.capacity + (st.capacity * 3 / 2 - st.capacity) = st.capacity * 3 / 2
      omega
    · show 2 ≤ st.capacity * 3 / 2
      omega
  · refine ⟨_, rfl, ?_, rfl, rfl⟩
    simp only [hg, if_false]
    refine ⟨pad1, rfl, by simp [hlen], ?_, hlen1, h2⟩
    show st.length + 1 < st.capacity
    omega

/-! ## The loop of kash_split_line -/

theorem split_loop_done (fuel : Nat) (st : SplitState) (h : st.token = none) :
    split_loop fuel st = some st := by
  cases fuel <;> simp [split_loop, h]

theorem split_loop_step (fuel : Nat) (st st1 : SplitState) (p : Nat) (h : st.token = some p)
    (hb : split_body st p = some st1) :
    split_loop (fuel + 1) st = split_loop fuel st1 := by
  rw [split_loop]
  simp [h, hb]

/-- Run of the loop from a state reached by a `strtok` call on a buffer whose unread part is
the NUL-free text `s`: the loop ends, and the pointers it stores denote the maximal runs
of `s`, while pointers stored earlier keep their strings. -/
theorem split_loop_spec (n : Nat) :
    ∀ (s D C : List Char) (st : SplitState) (ptrs : List Nat) (fuel : Nat),
      s.length ≤ n → n ≤ fuel → (∀ c ∈ s, c ≠ NUL) → ArrOk st ptrs →
      (∀ p ∈ ptrs, p + (c_string_at (D ++ (s ++ NUL :: C)) p).length ≤ D.length) →
      st.tok = (strtok { mem := D ++ (s ++ NUL :: C), save := D.length } none delimiters).2 →
      st.token = (strtok { mem := D ++ (s ++ NUL :: C), save := D.length } none delimiters).1 →
      ∃ st1 ptrs1, split_loop fuel st = some st1 ∧ st1.token = none ∧
        ArrOk st1 (ptrs ++ ptrs1) ∧
        ptrs1.map (c_string_at st1.tok.mem) = maximal_runs s ∧
        (∀ p ∈ ptrs, c_string_at st1.tok.mem p = c_string_at (D ++ (s ++ NUL :: C)) p) := by
  induction n using Nat.strong_induction_on with
  | _ n ih =>
  intro s D C st ptrs fuel hsn hnf hs harr hptrs htok htoken
  rcases text_shape s with hblank | ⟨ws, tok, rest, rfl, hws, hne, htokw, hrest⟩
  · -- no token left
    rw [strtok_none_shape D s C hblank] at htok htoken
    refine ⟨st, [], split_loop_done fuel st htoken, htoken, by simpa using harr, ?_, ?_⟩
    · simp [maximal_runs_blank s hblank]
    · intro p _
      rw [htok]
  · have htokn : ∀ c ∈ tok, c ∉ delimiters ∧ c ≠ NUL := by
      intro c hc
      exact ⟨htokw c hc, hs c (by simp [hc])⟩
    have htokN : ∀ c ∈ tok, c ≠ NUL := fun c hc => (htokn c hc).2
    have htl : 1 ≤ tok.length := by
      cases tok with
      | nil => exact absurd rfl hne
      | cons t tok => simp
    have hfuel : ∃ f, fuel = f + 1 := by
      refine ⟨fuel - 1, ?_⟩
      simp at hsn
      omega
    obtain ⟨f, rfl⟩ := hfuel
    rcases hrest with rfl | ⟨d, s3, rfl, hd⟩
    · -- the token ends at the terminating NUL
      have hmem : D ++ ((ws ++ (tok ++ [])) ++ NUL :: C) = D ++ (ws ++ (tok ++ NUL :: C)) := by
        simp
      rw [hmem] at htok htoken hptrs ⊢
      rw [strtok_some_shape D ws tok NUL C hws hne htokn (Or.inl rfl)] at htok htoken
      simp only [if_true] at htok htoken
      obtain ⟨st1, hbody, harr1, htok1, htoken1⟩ :=
        split_body_spec st ptrs (D.length + ws.length) harr
      have hshape : D ++ (ws ++ (tok ++ NUL :: C)) = (D ++ (ws ++ tok)) ++ ([] ++ NUL :: C) := by
        simp
      have hsave : D.length + ws.length + tok.length = (D ++ (ws ++ tok)).length := by
        simp [Nat.add_assoc]
      have hp : c_string_at (D ++ (ws ++ (tok ++ NUL :: C))) (D.length + ws.length) = tok := by
        have := c_string_at_shape (D ++ ws) tok C htokN
        simpa using this
      rw [htok, hshape, hsave] at htok1 htoken1
      have hpre : ∀ q ∈ ptrs ++ [D.length + ws.length],
          q + (c_string_at ((D ++ (ws ++ tok)) ++ ([] ++ NUL :: C)) q).length
            ≤ (D ++ (ws ++ tok)).length := by
        intro q hq
        rw [← hshape]
        rcases List.mem_append.mp hq with hq | hq
        · have := hptrs q hq
          simp only [List.length_append]
          omega
        · rw [List.mem_singleton] at hq
          rw [hq, hp]
          simp only [List.length_append]
          omega
      obtain ⟨st2, ptrs2, hloop, hnone, harr2, hmap, hkeep⟩ :=
        ih 0 (by simp at hsn; omega) [] (D ++ (ws ++ tok)) C st1 (ptrs ++ [D.length + ws.length])
          f (by simp) (by omega) (by simp) harr1 hpre htok1 htoken1
      refine ⟨st2, (D.length + ws.length) :: ptrs2, ?_, hnone, by simpa using harr2, ?_, ?_⟩
      · rw [split_loop_step f st st1 _ htoken hbody]
        exact hloop
      · have h1 := hkeep (D.length + ws.length) (by simp)
        rw [← hshape, hp] at h1
        have h2 : maximal_runs (ws ++ (tok ++ [])) = [tok] := by
          rw [maximal_runs_skip ws _ hws, List.append_nil]
          exact maximal_runs_single tok hne htokw
        rw [h2, List.map_cons, h1, hmap, maximal_runs_nil]
      · intro q hq
        have := hkeep q (by simp [hq])
        rw [← hshape] at this
        exact this
    · -- the token ends at a delimiter, which is overwritten
      have hdN : d ≠ NUL := mem_delimiters_ne_NUL hd
      have hmem : D ++ ((ws ++ (tok ++ d :: s3)) ++ NUL :: C)
          = D ++ (ws ++ (tok ++ d :: (s3 ++ NUL :: C))) := by
        simp
      rw [hmem] at htok htoken hptrs ⊢
      rw [strtok_some_shape D ws tok d (s3 ++ NUL :: C) hws hne htokn (Or.inr hd)]
        at htok htoken
      simp only [hdN, if_false] at htok htoken
      obtain ⟨st1, hbody, harr1, htok1, htoken1⟩ :=
        split_body_spec st ptrs (D.length + ws.length) harr
      have hshape : D ++ (ws ++ (tok ++ NUL :: (s3 ++ NUL :: C)))
          = (D ++ (ws ++ (tok ++ [NUL]))) ++ (s3 ++ NUL :: C) := by
        simp
      have hsave : D.length + ws.length + tok.length + 1
          = (D ++ (ws ++ (tok ++ [NUL]))).length := by
        simp [Nat.add_assoc]
      have hp : c_string_at (D ++ (ws ++ (tok ++ NUL :: (s3 ++ NUL :: C))))
          (D.length + ws.length) = tok := by
        have := c_string_at_shape (D ++ ws) tok (s3 ++ NUL :: C) htokN
        simpa using this
      have hwrite : ∀ q ∈ ptrs,
          c_string_at (D ++ (ws ++ (tok ++ NUL :: (s3 ++ NUL :: C)))) q
            = c_string_at (D ++ (ws ++ (tok ++ d :: (s3 ++ NUL :: C)))) q := by
        intro q hq
        have h1 := hptrs q hq
        have h2 := c_string_at_write (D ++ (ws ++ tok)) d (s3 ++ NUL :: C) q
        simp only [List.append_assoc, List.length_append] at h2
        exact h2 (by omega)
      rw [htok, hshape, hsave] at htok1 htoken1
      have hpre : ∀ q ∈ ptrs ++ [D.length + ws.length],
          q + (c_string_at ((D ++ (ws ++ (tok ++ [NUL]))) ++ (s3 ++ NUL :: C)) q).length
            ≤ (D ++ (ws ++ (tok ++ [NUL]))).length := by
        intro q hq
        rw [← hshape]
        rcases List.mem_append.mp hq with hq | hq
        · have := hptrs q hq
          rw [hwrite q hq]
          simp only [List.length_append]
          omega
        · rw [List.mem_singleton] at hq
          rw [hq, hp]
          simp only [List.length_append, List.length_singleton]
          omega
      have hs3 : ∀ c ∈ s3, c ≠ NUL := fun c hc => hs c (by simp [hc])
      have hlen3 : s3.length < n := by
        simp at hsn
        omega
      obtain ⟨st2, ptrs2, hloop, hnone, harr2, hmap, hkeep⟩ :=
        ih s3.length hlen3 s3 (D ++ (ws ++ (tok ++ [NUL]))) C st1
          (ptrs ++ [D.length + ws.length]) f (Nat.le_refl _) (by omega) hs3 harr1 hpre
          htok1 htoken1
      refine ⟨st2, (D.length + ws.length) :: ptrs2, ?_, hnone, by simpa using harr2, ?_, ?_⟩
      · rw [split_loop_step f st st1 _ htoken hbody]
        exact hloop
      · have h1 := hkeep (D.length + ws.length) (by simp)
        rw [← hshape, hp] at h1
        have h2 : maximal_runs (ws ++ (tok ++ d :: s3)) = tok :: maximal_runs s3 := by
          rw [maximal_runs_skip ws _ hws]
          exact maximal_runs_token tok d s3 hne htokw hd
        rw [h2, List.map_cons, h1, hmap]
      · intro q hq
        have := hkeep q (by simp [hq])
        rw [← hshape] at this
        rw [this]
        exact hwrite q hq

theorem strtok_first_call (mem : List Char) (delim : List Char) :
    strtok { mem := mem, save := 0 } (some 0) delim
      = strtok { mem := mem, save := 0 } none delim := rfl

theorem read_argv_terminated (ptrs : List Nat) (pad : List Slot) :
    read_argv (ptrs.map Slot.ptr ++ Slot.null :: pad) = some ptrs := by
  induction ptrs with
  | nil => rfl
  | cons p ptrs ih => simp [read_argv, ih]

/-- The loop of `kash_split_line` ends within the bound, with the pointers to the maximal
runs of the line stored in order and room left for the terminator. -/
theorem split_loop_result (line : List Char) :
    ∃ (st : SplitState) (ptrs : List Nat),
      split_loop (line.length + 1) (split_init line) = some st ∧ st.token = none ∧
      ArrOk st ptrs ∧ ptrs.map (c_string_at st.tok.mem) = maximal_runs (c_string line) := by
  obtain ⟨C, hC⟩ := line_buffer_shape line
  have hlen : (c_string line).length ≤ line.length :=
    (List.takeWhile_sublist _).length_le
  have harr : ArrOk (split_init line) [] :=
    ⟨malloc 32, rfl, rfl, by simp [split_init], by simp [split_init, malloc],
      by simp [split_init]⟩
  have hmem : line ++ [NUL] = [] ++ (c_string line ++ NUL :: C) := by
    simpa using hC
  obtain ⟨st1, ptrs, hloop, hnone, harr1, hmap, _⟩ :=
    split_loop_spec line.length (c_string line) [] C (split_init line) [] (line.length + 1)
      hlen (by omega) (c_string_no_NUL line) harr (by simp)
      (by simp only [split_init]; rw [strtok_first_call, hmem]; rfl)
      (by simp only [split_init]; rw [strtok_first_call, hmem]; rfl)
  exact ⟨st1, ptrs, hloop, hnone, by simpa using harr1, hmap⟩

/-- The array `kash_split_line` returns: pointers to the maximal runs of the line, then
the `NULL` terminator, all inside the allocated cells. -/
theorem kash_split_line_spec (line : List Char) :
    ∃ (ptrs : List Nat) (pad : List Slot) (mem : List Char),
      kash_split_line line = some (ptrs.map Slot.ptr ++ Slot.null :: pad, mem) ∧
      ptrs.map (c_string_at mem) = maximal_runs (c_string line) := by
  obtain ⟨st1, ptrs, hloop, _, harr1, hmap⟩ := split_loop_result line
  obtain ⟨pad, htokens, hlength, hlt, hcap, _⟩ := harr1
  have hpad : pad ≠ [] := by
    intro hp
    rw [htokens, hp] at hcap
    simp at hcap
    omega
  obtain ⟨x, pad1, rfl⟩ := List.exists_cons_of_ne_nil hpad
  have hstore : store st1.tokens st1.length Slot.null
      = some (ptrs.map Slot.ptr ++ Slot.null :: pad1) := by
    unfold store
    rw [if_pos (by omega), htokens, hlength]
    have : ptrs.length = (ptrs.map Slot.ptr).length := by simp
    rw [this, List.set_append_right _ _ (Nat.le_refl _)]
    simp
  refine ⟨ptrs, pad1, st1.tok.mem, ?_, hmap⟩
  unfold kash_split_line
  rw [hloop]
  simp only [hstore]

theorem split_tokens_eq (line : List Char) :
    split_tokens line = some (maximal_runs (c_string line)) := by
  obtain ⟨ptrs, pad, mem, h, hmap⟩ := kash_split_line_spec line
  unfold split_tokens
  rw [h]
  simp only [read_argv_terminated, Option.map_some', hmap]

/-! ## Maximal runs, declaratively -/

theorem runs_maximal_runs (n : Nat) :
    ∀ s : List Char, s.length ≤ n → Runs s (maximal_runs s) := by
  induction n using Nat.strong_induction_on with
  | _ n ih =>
  intro s hsn
  rcases text_shape s with hblank | ⟨ws, tok, rest, rfl, hws, hne, htok, hrest⟩
  · rw [maximal_runs_blank s hblank]
    exact Runs.blank s hblank
  · rcases hrest with rfl | ⟨d, s3, rfl, hd⟩
    · rw [maximal_runs_skip ws _ hws, List.append_nil, maximal_runs_single tok hne htok]
      exact Runs.last ws tok hws hne htok
    · rw [maximal_runs_skip ws _ hws, maximal_runs_token tok d s3 hne htok hd]
      have hlt : s3.length < n := by
        simp at hsn
        omega
      exact Runs.token ws tok d s3 _ hws hne htok hd (ih s3.length hlt s3 (Nat.le_refl _))

theorem runs_tokens {s : List Char} {toks : List (List Char)} (h : Runs s toks) :
    ∀ t ∈ toks, t ≠ [] ∧ (∀ c ∈ t, c ∉ whitespace) ∧ ∀ c ∈ t, c ∈ s := by
  induction h with
  | blank ws _ => simp
  | last ws tok _ hne htok =>
    intro t ht
    rw [List.mem_singleton] at ht
    subst ht
    exact ⟨hne, htok, fun c hc => by simp [hc]⟩
  | token ws tok d rest toks _ hne htok _ _ ih =>
    intro t ht
    rcases List.mem_cons.mp ht with rfl | ht
    · exact ⟨hne, htok, fun c hc => by simp [hc]⟩
    · obtain ⟨h1, h2, h3⟩ := ih t ht
      exact ⟨h1, h2, fun c hc => by simp [h3 c hc]⟩

theorem maximal_runs_join (toks : List (List Char))
    (h : ∀ t ∈ toks, t ≠ [] ∧ ∀ c ∈ t, c ∉ whitespace) :
    maximal_runs (join_spaces toks) = toks := by
  induction toks with
  | nil => exact maximal_runs_nil
  | cons t ts ih =>
    have ht := h t (List.mem_cons_self _ _)
    cases ts with
    | nil => exact maximal_runs_single t ht.1 ht.2
    | cons t1 ts =>
      have ih1 := ih (fun x hx => h x (List.mem_cons_of_mem _ hx))
      show maximal_runs (t ++ ' ' :: join_spaces (t1 :: ts)) = t :: t1 :: ts
      rw [maximal_runs_token t ' ' _ ht.1 ht.2 (by decide), ih1]

theorem c_string_of_no_NUL (s : List Char) (h : ∀ c ∈ s, c ≠ NUL) : c_string s = s := by
  unfold c_string
  rw [List.takeWhile_eq_self_iff]
  intro c hc
  simpa using h c hc

theorem join_spaces_no_NUL (toks : List (List Char)) (h : ∀ t ∈ toks, ∀ c ∈ t, c ≠ NUL) :
    ∀ c ∈ join_spaces toks, c ≠ NUL := by
  induction toks with
  | nil => simp [join_spaces]
  | cons t ts ih =>
    cases ts with
    | nil => exact h t (List.mem_cons_self _ _)
    | cons t1 ts =>
      intro c hc
      have hc1 : c ∈ t ++ ' ' :: join_spaces (t1 :: ts) := hc
      rcases List.mem_append.mp hc1 with hc2 | hc2
      · exact h t (List.mem_cons_self _ _) c hc2
      · rcases List.mem_cons.mp hc2 with rfl | hc3
        · decide
        · exact ih (fun x hx => h x (List.mem_cons_of_mem _ hx)) c hc3

/-! ## Claims about the tokenizer -/

/-- C1. For every input line, `kash_split_line` returns exactly the maximal runs of
non-whitespace characters of the line (as C reads it: the text before a NUL byte, which is
the whole line when it has none), first to last: the tokens stand in the relation `Runs`
to the line, so none is dropped, merged or reordered, and every token is non-empty and
free of whitespace. Splitting `"  a   b\tc  "` yields `["a","b","c"]`. -/
theorem kash_split_line_maximal_runs (line : List Char) :
    split_tokens line = some (maximal_runs (c_string line)) ∧
    Runs (c_string line) (maximal_runs (c_string line)) ∧
    (∀ t ∈ maximal_runs (c_string line), t ≠ [] ∧ ∀ c ∈ t, c ∉ whitespace) ∧
    ((∀ c ∈ line, c ≠ NUL) → c_string line = line) ∧
    split_tokens "  a   b\tc  ".toList = some ["a".toList, "b".toList, "c".toList] := by
  have hruns := runs_maximal_runs _ (c_string line) (Nat.le_refl _)
  refine ⟨split_tokens_eq line, hruns, ?_, c_string_of_no_NUL line, by decide⟩
  intro t ht
  exact ⟨(runs_tokens hruns t ht).1, (runs_tokens hruns t ht).2.1⟩

/-- Witness for C1: the line `"ls  -l\t/tmp\n"` has no NUL byte and splits into `ls`, `-l`
and `/tmp`. -/
theorem kash_split_line_maximal_runs_witness :
    split_tokens "ls  -l\t/tmp\n".toList = some (maximal_runs "ls  -l\t/tmp\n".toList) ∧
    maximal_runs "ls  -l\t/tmp\n".toList = ["ls".toList, "-l".toList, "/tmp".toList] := by
  have h := kash_split_line_maximal_runs "ls  -l\t/tmp\n".toList
  rw [h.2.2.2.1 (by decide)] at h
  exact ⟨h.1, by decide⟩

/-- C2. For every line that is empty or consists only of whitespace characters,
`kash_split_line` returns the empty sequence: the first cell of the returned array is the
`NULL` terminator. -/
theorem kash_split_line_blank (line : List Char) (h : ∀ c ∈ line, c ∈ whitespace) :
    split_tokens line = some [] ∧
    ∃ pad mem, kash_split_line line = some (Slot.null :: pad, mem) := by
  have hblank : maximal_runs (c_string line) = [] :=
    maximal_runs_blank _ (fun c hc => h c (List.takeWhile_subset _ hc))
  constructor
  · rw [split_tokens_eq, hblank]
  · obtain ⟨ptrs, pad, mem, hk, hmap⟩ := kash_split_line_spec line
    rw [hblank] at hmap
    have : ptrs = [] := by simpa using hmap
    subst this
    exact ⟨pad, mem, hk⟩

/-- Witness for C2: the lines `""` and `"   \t "`. -/
theorem kash_split_line_blank_witness :
    (split_tokens "".toList = some [] ∧
      ∃ pad mem, kash_split_line "".toList = some (Slot.null :: pad, mem)) ∧
    (split_tokens "   \t ".toList = some [] ∧
      ∃ pad mem, kash_split_line "   \t ".toList = some (Slot.null :: pad, mem)) :=
  ⟨kash_split_line_blank "".toList (by decide),
   kash_split_line_blank "   \t ".toList (by decide)⟩

/-- C3. Idempotence of the tokenizer: joining the tokens `kash_split_line` returns with a
single space between consecutive tokens and splitting the joined text again yields the same
token sequence. -/
theorem kash_split_line_idempotent (line : List Char) :
    ∃ toks, split_tokens line = some toks ∧ split_tokens (join_spaces toks) = some toks := by
  have hruns := runs_maximal_runs _ (c_string line) (Nat.le_refl _)
  refine ⟨maximal_runs (c_string line), split_tokens_eq line, ?_⟩
  have hno : ∀ c ∈ join_spaces (maximal_runs (c_string line)), c ≠ NUL := by
    apply join_spaces_no_NUL
    intro t ht c hc
    exact c_string_no_NUL line c ((runs_tokens hruns t ht).2.2 c hc)
  rw [split_tokens_eq, c_string_of_no_NUL _ hno, maximal_runs_join]
  intro t ht
  exact ⟨(runs_tokens hruns t ht).1, (runs_tokens hruns t ht).2.1⟩

/-! ## The token buffer -/

theorem realloc_length (a : List Slot) (n : Nat) (h : a.length ≤ n) :
    (realloc a n).length = n := by
  unfold realloc
  rw [List.length_append, List.length_take, List.length_replicate]
  omega

theorem split_loop_reachable (line : List Char) (fuel : Nat) :
    ∀ st st1 : SplitState, Reachable line st → split_loop fuel st = some st1 →
      Reachable line st1 := by
  induction fuel with
  | zero =>
    intro st st1 hr h
    rw [split_loop] at h
    cases htoken : st.token with
    | none =>
      rw [htoken] at h
      simp at h
      rw [← h]
      exact hr
    | some p =>
      rw [htoken] at h
      simp at h
  | succ fuel ih =>
    intro st st1 hr h
    cases htoken : st.token with
    | none =>
      rw [split_loop_done _ st htoken] at h
      simp at h
      rw [← h]
      exact hr
    | some p =>
      cases hbody : split_body st p with
      | none =>
        rw [split_loop] at h
        simp [htoken, hbody] at h
      | some st2 =>
        rw [split_loop_step fuel st st2 p htoken hbody] at h
        exact ih st2 st1 (Reachable.step st st2 p hr htoken hbody) h

theorem maximal_runs_replicate (n : Nat) :
    maximal_runs (List.replicate n ['a', ' ']).flatten = List.replicate n ['a'] := by
  induction n with
  | zero => exact maximal_runs_nil
  | succ n ih =>
    rw [List.replicate_succ, List.flatten_cons, List.replicate_succ]
    show maximal_runs (['a'] ++ ' ' :: (List.replicate n ['a', ' ']).flatten) = _
    rw [maximal_runs_token ['a'] ' ' _ (by simp) (by decide) (by decide), ih]

/-- Lines with any number of tokens exist, and the loop reaches its exit with that many
tokens stored. -/
theorem reachable_any_length (n : Nat) :
    ∃ line st, Reachable line st ∧ st.token = none ∧ st.length = n := by
  obtain ⟨st, ptrs, hloop, hnone, harr, hmap⟩ :=
    split_loop_result (List.replicate n ['a', ' ']).flatten
  refine ⟨_, st, split_loop_reachable _ _ _ st Reachable.init hloop, hnone, ?_⟩
  obtain ⟨_, _, hlength, _⟩ := harr
  have hno : ∀ c ∈ (List.replicate n ['a', ' ']).flatten, c ≠ NUL := by
    intro c hc
    obtain ⟨l, hl, hcl⟩ := List.mem_flatten.mp hc
    rw [(List.mem_replicate.mp hl).2] at hcl
    rcases List.mem_cons.mp hcl with rfl | hcl
    · decide
    · rw [List.mem_singleton] at hcl
      rw [hcl]
      decide
  rw [c_string_of_no_NUL _ hno, maximal_runs_replicate] at hmap
  have := congrArg List.length hmap
  simp only [List.length_map, List.length_replicate] at this
  rw [hlength, this]

/-- C10. Token-buffer bound in `kash_split_line`: the capacity starts at 32, the loop
reaches its exit with any number of tokens stored, and in every state at the head of the
loop (the state at loop exit included) `length < capacity` holds and the array has
`capacity` cells; hence the store of the `NULL` terminator at index
`length` is inside the array, and so is the store of the next token; after that store the
length is one more, and the capacity becomes `capacity * 3 / 2`, strictly larger,
exactly when the new length reaches the capacity. -/
theorem split_capacity_bound (line : List Char) (st : SplitState) (h : Reachable line st) :
    (split_init line).capacity = 32 ∧ (split_init line).length = 0 ∧
    (∀ n, ∃ line1 st1, Reachable line1 st1 ∧ st1.token = none ∧ st1.length = n) ∧
    st.length < st.capacity ∧ st.tokens.length = st.capacity ∧
    (∃ tokens, store st.tokens st.length Slot.null = some tokens) ∧
    (∀ p, st.token = some p →
      ∃ st1, split_body st p = some st1 ∧
        (∃ tokens1, store st.tokens st.length (Slot.ptr p) = some tokens1) ∧
        st1.length = st.length + 1 ∧
        (st.length + 1 ≥ st.capacity →
          st1.capacity = st.capacity * 3 / 2 ∧ st.capacity < st1.capacity) ∧
        (st.length + 1 < st.capacity → st1.capacity = st.capacity)) := by
  have hinv : st.length < st.capacity ∧ st.tokens.length = st.capacity ∧ 32 ≤ st.capacity := by
    induction h with
    | init => simp [split_init, malloc]
    | step st st1 p _ _ hbody ih =>
      obtain ⟨hlt, hcap, h32⟩ := ih
      unfold split_body store at hbody
      rw [if_pos (by omega)] at hbody
      simp only [Option.some.injEq] at hbody
      subst hbody
      by_cases hg : st.length + 1 ≥ st.capacity
      · simp only [hg, if_true]
        refine ⟨by omega, ?_, by omega⟩
        apply realloc_length
        rw [List.length_set]
        omega
      · simp only [hg, if_false]
        refine ⟨by omega, ?_, h32⟩
        rw [List.length_set]
        exact hcap
  obtain ⟨hlt, hcap, h32⟩ := hinv
  refine ⟨rfl, rfl, reachable_any_length, hlt, hcap, ?_, ?_⟩
  · exact ⟨_, by unfold store; rw [if_pos (by omega)]⟩
  · intro p _
    have hstore : store st.tokens st.length (Slot.ptr p)
        = some (st.tokens.set st.length (Slot.ptr p)) := by
      unfold store
      rw [if_pos (by omega)]
    refine ⟨_, by unfold split_body; rw [hstore], ⟨_, hstore⟩, rfl, ?_, ?_⟩
    · intro hg
      simp only [hg, if_true]
      exact ⟨trivial, by omega⟩
    · intro hl
      have : ¬ (st.length + 1 ≥ st.capacity) := by omega
      simp only [this, if_false]

set_option maxRecDepth 100000 in
/-- Witness for C10: splitting a line of 32 one-letter tokens, the loop exits in a reachable
state with 32 tokens stored in a buffer that has grown from 32 to 48 cells. -/
theorem split_capacity_bound_witness :
    ∃ st, split_loop 65 (split_init (List.replicate 32 ['a', ' ']).flatten) = some st ∧
      st.length = 32 ∧ st.capacity = 48 ∧ st.length < st.capacity ∧
      st.tokens.length = st.capacity := by
  have hrun : (split_loop 65 (split_init (List.replicate 32 ['a', ' ']).flatten)).isSome
      = true := by decide
  obtain ⟨st, hst⟩ := Option.isSome_iff_exists.mp hrun
  have hreach := split_loop_reachable _ 65 _ st Reachable.init hst
  have hbound := split_capacity_bound _ st hreach
  have hvals : (split_loop 65 (split_init (List.replicate 32 ['a', ' ']).flatten)).map
      (fun s => (s.length, s.capacity)) = some (32, 48) := by decide
  rw [hst] at hvals
  simp only [Option.map_some', Option.some.injEq, Prod.mk.injEq] at hvals
  exact ⟨st, hst, hvals.1, hvals.2, hbound.2.2.2.1, hbound.2.2.2.2.1⟩

/-! ## The dispatcher -/

theorem exec_builtin_eq (os : OS) (args : List (List Char)) (arg0 : List Char) (w : World) :
    exec_builtin os args arg0 w builtins =
      if arg0 = "help".toList then
        some (kash_help os args (w.log (Event.builtin "help".toList args)))
      else if arg0 = "exit".toList then
        some (kash_exit os args (w.log (Event.builtin "exit".toList args)))
      else if arg0 = "cd".toList then
        some (kash_cd os args (w.log (Event.builtin "cd".toList args)))
      else none := by
  simp only [exec_builtin, builtins, strcmp]
  by_cases h1 : arg0 = "help".toList
  · simp [h1]
  · by_cases h2 : arg0 = "exit".toList
    · simp [h1, h2]
    · by_cases h3 : arg0 = "cd".toList
      · simp [h1, h2, h3]
      · simp [h1, h2, h3]

theorem mem_builtin_names (arg0 : List Char) :
    arg0 ∈ builtin_names ↔
      arg0 = "help".toList ∨ arg0 = "exit".toList ∨ arg0 = "cd".toList := by
  simp [builtin_names, builtins]

theorem exec_builtin_none (os : OS) (args : List (List Char)) (arg0 : List Char) (w : World)
    (h : arg0 ∉ builtin_names) : exec_builtin os args arg0 w builtins = none := by
  rw [mem_builtin_names] at h
  rw [exec_builtin_eq]
  simp only [not_or] at h
  rw [if_neg h.1, if_neg h.2.1, if_neg h.2.2]

theorem kash_cd_returns (os : OS) (args : List (List Char)) (w : World) :
    ∃ w1, kash_cd os args w = Outcome.returned w1 ∧ w1.stdin = w.stdin ∧ w1.file = w.file ∧
      w1.offset = w.offset ∧ w1.seekable = w.seekable ∧
      w1.stdout = w.stdout ∧ w1.trace = w.trace := by
  unfold kash_cd
  split
  · exact ⟨_, rfl, rfl, rfl, rfl, rfl, rfl, rfl⟩
  · split
    · exact ⟨_, rfl, rfl, rfl, rfl, rfl, rfl, rfl⟩
    · exact ⟨_, rfl, rfl, rfl, rfl, rfl, rfl, rfl⟩

theorem wait_loop_terminal (pre : List Status) (t : Status) (post : List Status) (w : World)
    (hpre : ∀ s ∈ pre, terminal s = false) (ht : terminal t = true) :
    wait_loop (pre ++ t :: post) w
      = Outcome.returned { w with trace := w.trace ++ (pre ++ [t]).map Event.waitpid } := by
  induction pre generalizing w with
  | nil =>
    unfold terminal at ht
    cases h1 : WIFEXITED t <;> cases h2 : WIFSIGNALED t <;>
      simp [wait_loop, h1, h2, World.log] at ht ⊢
  | cons s pre ih =>
    have hs := hpre s (List.mem_cons_self _ _)
    unfold terminal at hs
    rw [List.cons_append, wait_loop]
    have hcond : (!WIFEXITED s && !WIFSIGNALED s) = true := by
      cases h1 : WIFEXITED s <;> cases h2 : WIFSIGNALED s <;> simp [h1, h2] at hs ⊢
    rw [if_pos hcond, ih _ (fun x hx => hpre x (List.mem_cons_of_mem _ hx))]
    simp [World.log]

theorem wait_loop_stopped (reports : List Status) (w : World)
    (h : ∀ s ∈ reports, terminal s = false) :
    wait_loop reports w
      = Outcome.blocked { w with trace := w.trace ++ reports.map Event.waitpid } := by
  induction reports generalizing w with
  | nil => simp [wait_loop]
  | cons s reports ih =>
    have hs := h s (List.mem_cons_self _ _)
    unfold terminal at hs
    rw [wait_loop]
    have hcond : (!WIFEXITED s && !WIFSIGNALED s) = true := by
      cases h1 : WIFEXITED s <;> cases h2 : WIFSIGNALED s <;> simp [h1, h2] at hs ⊢
    rw [if_pos hcond, ih _ (fun x hx => h x (List.mem_cons_of_mem _ hx))]
    simp [World.log]

theorem first_terminal (reports : List Status) :
    (∀ s ∈ reports, terminal s = false) ∨
    ∃ pre t post, reports = pre ++ t :: post ∧ (∀ s ∈ pre, terminal s = false) ∧
      terminal t = true := by
  induction reports with
  | nil => left; simp
  | cons s reports ih =>
    by_cases hs : terminal s = true
    · right
      exact ⟨[], s, reports, rfl, by simp, hs⟩
    · have hs1 : terminal s = false := by simpa using hs
      rcases ih with h | ⟨pre, t, post, rfl, hpre, ht⟩
      · left
        intro x hx
        rcases List.mem_cons.mp hx with rfl | hx
        · exact hs1
        · exact h x hx
      · right
        refine ⟨s :: pre, t, post, rfl, ?_, ht⟩
        intro x hx
        rcases List.mem_cons.mp hx with rfl | hx
        · exact hs1
        · exact hpre x hx

/-- The state `exit` leaves differs from the state before it in the offset only. -/
theorem sync_eq (w : World) : ∃ off, w.sync = { w with offset := off } := by
  unfold World.sync
  split
  · exact ⟨_, rfl⟩
  · exact ⟨w.offset, rfl⟩

@[simp]
theorem sync_stdin (w : World) : w.sync.stdin = w.stdin := by
  unfold World.sync
  split <;> rfl

@[simp]
theorem sync_file (w : World) : w.sync.file = w.file := by
  unfold World.sync
  split <;> rfl

@[simp]
theorem sync_seekable (w : World) : w.sync.seekable = w.seekable := by
  unfold World.sync
  split <;> rfl

@[simp]
theorem sync_cwd (w : World) : w.sync.cwd = w.cwd := by
  unfold World.sync
  split <;> rfl

@[simp]
theorem sync_stdout (w : World) : w.sync.stdout = w.stdout := by
  unfold World.sync
  split <;> rfl

@[simp]
theorem sync_stderr (w : World) : w.sync.stderr = w.stderr := by
  unfold World.sync
  split <;> rfl

@[simp]
theorem sync_trace (w : World) : w.sync.trace = w.trace := by
  unfold World.sync
  split <;> rfl

theorem sync_not_seekable (w : World) (h : w.seekable = false) : w.sync = w := by
  unfold World.sync
  simp [h]

/-- The forked child ends with its image replaced or by `exit(1)`, and leaves nothing
behind but a new offset of the input, and none on an input that is not seekable. -/
theorem exec_child_frame (os : OS) (arg0 : List Char) (args : List (List Char)) (w : World) :
    (∃ w1, exec_child os arg0 args w = Outcome.replaced w1 ∨
      exec_child os arg0 args w = Outcome.exited 1 w1) ∧
    (exec_child os arg0 args w).world.trace = w.trace ++ [Event.execvp arg0 args] ∧
    (exec_child os arg0 args w).world.stdin = w.stdin ∧
    (exec_child os arg0 args w).world.stdout = w.stdout ∧
    (w.seekable = false → (exec_child os arg0 args w).world.offset = w.offset) := by
  unfold exec_child
  split
  · exact ⟨⟨_, Or.inl rfl⟩, rfl, rfl, rfl, fun _ => rfl⟩
  · rename_i msg _
    obtain ⟨off, hoff⟩ := sync_eq ((w.log (Event.execvp arg0 args)).perror "kash".toList msg)
    refine ⟨⟨_, Or.inr rfl⟩, ?_, ?_, ?_, ?_⟩
    · simp only [World.exit, Outcome.world, hoff]
      rfl
    · simp only [World.exit, Outcome.world, hoff]
      rfl
    · simp only [World.exit, Outcome.world, hoff]
      rfl
    · intro hs
      simp only [World.exit, Outcome.world]
      rw [sync_not_seekable _ (by simpa [World.perror, World.eprintf, World.log] using hs)]
      rfl

theorem kash_exec_external (os : OS) (arg0 : List Char) (rest : List (List Char)) (w : World)
    (h : arg0 ∉ builtin_names) :
    kash_exec os (arg0 :: rest) w =
      if os.fork (w.log (Event.exec (arg0 :: rest))) = 0 then
        exec_child os arg0 (arg0 :: rest)
          ((w.log (Event.exec (arg0 :: rest))).log
            (Event.fork (os.fork (w.log (Event.exec (arg0 :: rest))))))
      else if os.fork (w.log (Event.exec (arg0 :: rest))) > 0 then
        wait_loop
          (os.waitpid ((w.log (Event.exec (arg0 :: rest))).log
            (Event.fork (os.fork (w.log (Event.exec (arg0 :: rest)))))))
          (((w.log (Event.exec (arg0 :: rest))).log
            (Event.fork (os.fork (w.log (Event.exec (arg0 :: rest)))))).after_child
              (exec_child os arg0 (arg0 :: rest)
                ((w.log (Event.exec (arg0 :: rest))).log
                  (Event.fork (os.fork (w.log (Event.exec (arg0 :: rest))))))))
      else
        Outcome.returned
          (((w.log (Event.exec (arg0 :: rest))).log
            (Event.fork (os.fork (w.log (Event.exec (arg0 :: rest)))))).perror "kash".toList
              (os.fork_error (w.log (Event.exec (arg0 :: rest))))) := by
  unfold kash_exec
  simp only [exec_builtin_none os (arg0 :: rest) arg0 _ h]

theorem wait_loop_trace (reports : List Status) (w : World) :
    ∃ obs : List Status,
      (wait_loop reports w).world = { w with trace := w.trace ++ obs.map Event.waitpid } := by
  rcases first_terminal reports with h | ⟨pre, t, post, rfl, hpre, ht⟩
  · exact ⟨reports, by rw [wait_loop_stopped reports w h]; rfl⟩
  · exact ⟨pre ++ [t], by rw [wait_loop_terminal pre t post w hpre ht]; rfl⟩

theorem kash_exec_help (os : OS) (rest : List (List Char)) (w : World) :
    kash_exec os ("help".toList :: rest) w =
      kash_help os ("help".toList :: rest)
        ((w.log (Event.exec ("help".toList :: rest))).log
          (Event.builtin "help".toList ("help".toList :: rest))) := by
  unfold kash_exec
  simp only [exec_builtin_eq, if_true]

theorem kash_exec_exit (os : OS) (rest : List (List Char)) (w : World) :
    kash_exec os ("exit".toList :: rest) w =
      kash_exit os ("exit".toList :: rest)
        ((w.log (Event.exec ("exit".toList :: rest))).log
          (Event.builtin "exit".toList ("exit".toList :: rest))) := by
  unfold kash_exec
  simp only [exec_builtin_eq]
  rw [if_neg (by decide)]
  rfl

theorem kash_exec_cd (os : OS) (rest : List (List Char)) (w : World) :
    kash_exec os ("cd".toList :: rest) w =
      kash_cd os ("cd".toList :: rest)
        ((w.log (Event.exec ("cd".toList :: rest))).log
          (Event.builtin "cd".toList ("cd".toList :: rest))) := by
  unfold kash_exec
  simp only [exec_builtin_eq]
  rw [if_neg (by decide), if_neg (by decide)]
  rfl

theorem prompts_printf_helptext (w : World) : prompts (w.printf helptext) = prompts w := by
  unfold prompts World.printf
  rw [List.count_append]
  have : List.count "> ".toList [helptext] = 0 := by decide
  rw [this]
  rfl

/-- What a builtin command changes: the calls made are the entry into `kash_exec` and the
handler; the stream buffer, the input source and the number of prompts stay as they are,
and so does the offset of an input that is not seekable. -/
theorem kash_exec_builtin_frame (os : OS) (arg0 : List Char) (rest : List (List Char))
    (w : World) (h : arg0 ∈ builtin_names) :
    (kash_exec os (arg0 :: rest) w).world.trace =
      w.trace ++ [Event.exec (arg0 :: rest), Event.builtin arg0 (arg0 :: rest)] ∧
    (kash_exec os (arg0 :: rest) w).world.stdin = w.stdin ∧
    (kash_exec os (arg0 :: rest) w).world.file = w.file ∧
    (kash_exec os (arg0 :: rest) w).world.seekable = w.seekable ∧
    prompts (kash_exec os (arg0 :: rest) w).world = prompts w ∧
    (w.seekable = false → (kash_exec os (arg0 :: rest) w).world.offset = w.offset) := by
  rcases (mem_builtin_names arg0).mp h with h1 | h1 | h1
  · subst h1
    rw [kash_exec_help]
    refine ⟨by simp [kash_help, Outcome.world, World.printf, World.log], rfl, rfl, rfl, ?_,
      fun _ => rfl⟩
    simp only [kash_help, Outcome.world]
    rw [prompts_printf_helptext]
    rfl
  · subst h1
    rw [kash_exec_exit]
    refine ⟨?_, ?_, ?_, ?_, ?_, ?_⟩
    · simp [kash_exit, World.exit, Outcome.world, World.log]
    · simp [kash_exit, World.exit, Outcome.world, World.log]
    · simp [kash_exit, World.exit, Outcome.world, World.log]
    · simp [kash_exit, World.exit, Outcome.world, World.log]
    · simp [kash_exit, World.exit, Outcome.world, World.log, prompts]
    · intro hs
      simp only [kash_exit, World.exit, Outcome.world]
      rw [sync_not_seekable _ (by simpa [World.log] using hs)]
      rfl
  · subst h1
    rw [kash_exec_cd]
    obtain ⟨w1, hw1, hin, hfile, hoff, hseek, hout, htr⟩ :=
      kash_cd_returns os ("cd".toList :: rest)
        ((w.log (Event.exec ("cd".toList :: rest))).log
          (Event.builtin "cd".toList ("cd".toList :: rest)))
    rw [hw1]
    refine ⟨by simp [Outcome.world, htr, World.log], by simp [Outcome.world, hin, World.log],
      by simp [Outcome.world, hfile, World.log], by simp [Outcome.world, hseek, World.log],
      ?_, fun _ => by simp [Outcome.world, hoff, World.log]⟩
    simp only [Outcome.world, prompts, hout]
    rfl

/-- What an external command changes: after the entry into `kash_exec` comes the call of
`fork`, and then only `execvp` of the command (in the child) or status reports (in the
parent); the stream buffer, the input source and the standard output of the shell stay
as they are, and so does the offset of an input that is not seekable. -/
theorem kash_exec_external_frame (os : OS) (arg0 : List Char) (rest : List (List Char))
    (w : World) (h : arg0 ∉ builtin_names) :
    ∃ evs, (kash_exec os (arg0 :: rest) w).world.trace =
        w.trace ++ Event.exec (arg0 :: rest) ::
          Event.fork (os.fork (w.log (Event.exec (arg0 :: rest)))) :: evs ∧
      (∀ e ∈ evs, e = Event.execvp arg0 (arg0 :: rest) ∨ ∃ s, e = Event.waitpid s) ∧
      (os.fork (w.log (Event.exec (arg0 :: rest))) = 0 →
        evs = [Event.execvp arg0 (arg0 :: rest)]) ∧
      (kash_exec os (arg0 :: rest) w).world.stdin = w.stdin ∧
      (kash_exec os (arg0 :: rest) w).world.file = w.file ∧
      (kash_exec os (arg0 :: rest) w).world.seekable = w.seekable ∧
      (kash_exec os (arg0 :: rest) w).world.stdout = w.stdout ∧
      (w.seekable = false → (kash_exec os (arg0 :: rest) w).world.offset = w.offset) := by
  rw [kash_exec_external os arg0 rest w h]
  obtain ⟨⟨cw, hcw⟩, hctr, hcin, hcout, hcoff⟩ := exec_child_frame os arg0 (arg0 :: rest)
    ((w.log (Event.exec (arg0 :: rest))).log
      (Event.fork (os.fork (w.log (Event.exec (arg0 :: rest))))))
  by_cases h0 : os.fork (w.log (Event.exec (arg0 :: rest))) = 0
  · rw [if_pos h0]
    have hshape : ∃ off, (exec_child os arg0 (arg0 :: rest)
        ((w.log (Event.exec (arg0 :: rest))).log
          (Event.fork (os.fork (w.log (Event.exec (arg0 :: rest))))))).world
        = { (((w.log (Event.exec (arg0 :: rest))).log
              (Event.fork (os.fork (w.log (Event.exec (arg0 :: rest)))))).log
                (Event.execvp arg0 (arg0 :: rest))) with
            offset := off, stderr := (exec_child os arg0 (arg0 :: rest)
              ((w.log (Event.exec (arg0 :: rest))).log
                (Event.fork (os.fork (w.log (Event.exec (arg0 :: rest))))))).world.stderr } := by
      unfold exec_child
      split
      · exact ⟨_, rfl⟩
      · rename_i msg _
        obtain ⟨off, hoff⟩ := sync_eq
          ((((w.log (Event.exec (arg0 :: rest))).log
            (Event.fork (os.fork (w.log (Event.exec (arg0 :: rest)))))).log
              (Event.execvp arg0 (arg0 :: rest))).perror "kash".toList msg)
        refine ⟨off, ?_⟩
        simp only [World.exit, Outcome.world, hoff]
        rfl
    obtain ⟨off, hoff⟩ := hshape
    refine ⟨[Event.execvp arg0 (arg0 :: rest)], ?_, by simp, fun _ => rfl, ?_, ?_, ?_, ?_, ?_⟩
    · rw [hctr]
      simp [World.log]
    · rw [hcin]
      rfl
    · rw [hoff]
      rfl
    · rw [hoff]
      rfl
    · rw [hcout]
      rfl
    · intro hs
      rw [hcoff (by simpa [World.log] using hs)]
      rfl
  · rw [if_neg h0]
    by_cases hpos : os.fork (w.log (Event.exec (arg0 :: rest))) > 0
    · rw [if_pos hpos]
      obtain ⟨obs, hobs⟩ := wait_loop_trace
        (os.waitpid ((w.log (Event.exec (arg0 :: rest))).log
          (Event.fork (os.fork (w.log (Event.exec (arg0 :: rest)))))))
        (((w.log (Event.exec (arg0 :: rest))).log
          (Event.fork (os.fork (w.log (Event.exec (arg0 :: rest)))))).after_child
            (exec_child os arg0 (arg0 :: rest)
              ((w.log (Event.exec (arg0 :: rest))).log
                (Event.fork (os.fork (w.log (Event.exec (arg0 :: rest))))))))
      refine ⟨obs.map Event.waitpid, ?_, ?_, fun h1 => absurd h1 h0, ?_, ?_, ?_, ?_, ?_⟩
      · rw [hobs]
        simp [World.log, World.after_child]
      · intro e he
        obtain ⟨s, _, hs⟩ := List.mem_map.mp he
        exact Or.inr ⟨s, hs.symm⟩
      · rw [hobs]
        rfl
      · rw [hobs]
        rfl
      · rw [hobs]
        rfl
      · rw [hobs]
        rfl
      · intro hs
        rw [hobs]
        simp only [World.after_child]
        rw [hcoff (by simpa [World.log] using hs)]
        rfl
    · rw [if_neg hpos]
      exact ⟨[], by simp [Outcome.world, World.log, World.perror, World.eprintf], by simp,
        fun h1 => absurd h1 h0, rfl, rfl, rfl, rfl, fun _ => rfl⟩

/-! ## Claims about the dispatcher and the builtins -/

/-- C4. Builtin dispatch precedence in `kash_exec`, for every non-empty argument vector
`arg0 :: rest`: when `arg0` is exactly `help`, `exit` or `cd`, the handler of that name is
invoked with the full vector and nothing else happens (the calls made are the entry into
`kash_exec` and that handler: no fork, no execvp, no waitpid); when `arg0` is any other
string, no handler is invoked, `fork` is called, and the forked child calls `execvp` with
`arg0` and the full vector. Only `arg0` decides, whatever the rest of the vector is. -/
theorem kash_exec_dispatch (os : OS) (arg0 : List Char) (rest : List (List Char)) (w : World) :
    builtin_names = ["help".toList, "exit".toList, "cd".toList] ∧
    (arg0 = "help".toList → kash_exec os (arg0 :: rest) w =
      kash_help os (arg0 :: rest)
        ((w.log (Event.exec (arg0 :: rest))).log (Event.builtin arg0 (arg0 :: rest)))) ∧
    (arg0 = "exit".toList → kash_exec os (arg0 :: rest) w =
      kash_exit os (arg0 :: rest)
        ((w.log (Event.exec (arg0 :: rest))).log (Event.builtin arg0 (arg0 :: rest)))) ∧
    (arg0 = "cd".toList → kash_exec os (arg0 :: rest) w =
      kash_cd os (arg0 :: rest)
        ((w.log (Event.exec (arg0 :: rest))).log (Event.builtin arg0 (arg0 :: rest)))) ∧
    (arg0 ∈ builtin_names → (kash_exec os (arg0 :: rest) w).world.trace =
      w.trace ++ [Event.exec (arg0 :: rest), Event.builtin arg0 (arg0 :: rest)]) ∧
    (arg0 ∉ builtin_names →
      ∃ evs, (kash_exec os (arg0 :: rest) w).world.trace =
          w.trace ++ Event.exec (arg0 :: rest) ::
            Event.fork (os.fork (w.log (Event.exec (arg0 :: rest)))) :: evs ∧
        (∀ e ∈ evs, e = Event.execvp arg0 (arg0 :: rest) ∨ ∃ s, e = Event.waitpid s) ∧
        (os.fork (w.log (Event.exec (arg0 :: rest))) = 0 →
          evs = [Event.execvp arg0 (arg0 :: rest)])) := by
  refine ⟨rfl, ?_, ?_, ?_, ?_, ?_⟩
  · intro h
    subst h
    exact kash_exec_help os rest w
  · intro h
    subst h
    exact kash_exec_exit os rest w
  · intro h
    subst h
    exact kash_exec_cd os rest w
  · intro h
    exact (kash_exec_builtin_frame os arg0 rest w h).1
  · intro h
    obtain ⟨evs, h1, h2, h3, _⟩ := kash_exec_external_frame os arg0 rest w h
    exact ⟨evs, h1, h2, h3⟩

/-- Witness for C4: `cd /tmp extra` runs the `cd` handler only, and `CD /tmp`, which
differs from the builtin name in case, makes no handler call but forks. -/
theorem kash_exec_dispatch_witness :
    (kash_exec demo_os ["cd".toList, "/tmp".toList, "extra".toList] (demo_world [])).world.trace
      = [Event.exec ["cd".toList, "/tmp".toList, "extra".toList],
         Event.builtin "cd".toList ["cd".toList, "/tmp".toList, "extra".toList]] ∧
    ∃ evs, (kash_exec demo_os ["CD".toList, "/tmp".toList] (demo_world [])).world.trace
        = [] ++ Event.exec ["CD".toList, "/tmp".toList] :: Event.fork 1 :: evs ∧
      (∀ e ∈ evs, e = Event.execvp "CD".toList ["CD".toList, "/tmp".toList] ∨
        ∃ s, e = Event.waitpid s) :=
  ⟨(kash_exec_dispatch demo_os "cd".toList ["/tmp".toList, "extra".toList]
      (demo_world [])).2.2.2.2.1 (by decide),
   ((kash_exec_dispatch demo_os "CD".toList ["/tmp".toList]
      (demo_world [])).2.2.2.2.2 (by decide)).imp (fun _ h => ⟨h.1, h.2.1⟩)⟩

/-- C6. The `cd` builtin never terminates the shell and leaves the working directory
unchanged on every failure, for every argument vector with `args[0] = "cd"`: (a) with no
second token it writes `kash: cd: missing argument` to standard error and changes nothing
else; (b) when the directory change to `args[1]` fails it writes the error to standard
error and changes nothing else; (c) the outcome depends on `args[1]` only; and in every
case `kash_cd`, and `kash_exec` called with that vector, return to the caller. -/
theorem kash_cd_failure (os : OS) (args : List (List Char)) (w : World)
    (h0 : args.head? = some "cd".toList) :
    (args.get? 1 = none →
      kash_cd os args w
        = Outcome.returned
            { w with stderr := w.stderr ++ ["kash: cd: missing argument\n".toList] }) ∧
    (∀ path msg, args.get? 1 = some path → os.chdir w path = Except.error msg →
      kash_cd os args w
        = Outcome.returned
            { w with
              stderr := w.stderr ++ ["kash: cd".toList ++ ": ".toList ++ msg ++ "\n".toList] }) ∧
    (∀ args1 : List (List Char), args1.get? 1 = args.get? 1 →
      kash_cd os args1 w = kash_cd os args w) ∧
    (∃ w1, kash_cd os args w = Outcome.returned w1) ∧
    (∃ w1, kash_exec os args w = Outcome.returned w1 ∧
      kash_exec os args w =
        kash_cd os args ((w.log (Event.exec args)).log (Event.builtin "cd".toList args))) := by
  refine ⟨?_, ?_, ?_, ?_, ?_⟩
  · intro h
    unfold kash_cd
    rw [h]
    rfl
  · intro path msg h hfail
    unfold kash_cd
    rw [h]
    simp only [hfail]
    rfl
  · intro args1 h
    unfold kash_cd
    rw [h]
  · obtain ⟨w1, hw1, _⟩ := kash_cd_returns os args w
    exact ⟨w1, hw1⟩
  · cases args with
    | nil => simp at h0
    | cons arg0 rest =>
      have harg : arg0 = "cd".toList := by simpa using h0
      subst harg
      obtain ⟨w1, hw1, _⟩ := kash_cd_returns os ("cd".toList :: rest)
        ((w.log (Event.exec ("cd".toList :: rest))).log
          (Event.builtin "cd".toList ("cd".toList :: rest)))
      exact ⟨w1, by rw [kash_exec_cd, hw1], kash_exec_cd os rest w⟩

/-- Witness for C6: `cd` alone, and `cd /nonexistent-path` when the change fails. -/
theorem kash_cd_failure_witness :
    kash_cd failing_os ["cd".toList] (demo_world [])
      = Outcome.returned
          { demo_world [] with stderr := [] ++ ["kash: cd: missing argument\n".toList] } ∧
    kash_cd failing_os ["cd".toList, "/nonexistent-path".toList] (demo_world [])
      = Outcome.returned
          { demo_world [] with
            stderr := [] ++ ["kash: cd".toList ++ ": ".toList
              ++ "No such file or directory".toList ++ "\n".toList] } :=
  ⟨(kash_cd_failure failing_os ["cd".toList] (demo_world []) rfl).1 rfl,
   (kash_cd_failure failing_os ["cd".toList, "/nonexistent-path".toList] (demo_world [])
      rfl).2.1 _ _ rfl rfl⟩

theorem observed_append (es fs : List Event) : observed (es ++ fs) = observed es ++ observed fs := by
  induction es with
  | nil => rfl
  | cons e es ih => cases e <;> simp [observed, ih]

theorem observed_map_waitpid (reports : List Status) :
    observed (reports.map Event.waitpid) = reports := by
  induction reports with
  | nil => rfl
  | cons s reports ih => simp [observed, ih]

/-- C7. Wait protocol of `kash_exec` for a command that is not a builtin, in the parent of
a successful fork, for every sequence of status reports waiting delivers: when the first
terminal report (exited or signaled) comes after the reports `pre`, none of them terminal,
`kash_exec` returns having observed exactly `pre` and that report, whatever is reported
later; when no report is terminal it does not return; so whenever it returns, the last
status it observed is terminal, never a stopped one. -/
theorem kash_exec_wait (os : OS) (arg0 : List Char) (rest : List (List Char)) (w : World)
    (hext : arg0 ∉ builtin_names) (hfork : os.fork (w.log (Event.exec (arg0 :: rest))) > 0) :
    (∀ pre t post,
      os.waitpid ((w.log (Event.exec (arg0 :: rest))).log
        (Event.fork (os.fork (w.log (Event.exec (arg0 :: rest)))))) = pre ++ t :: post →
      (∀ s ∈ pre, terminal s = false) → terminal t = true →
      ∃ w1, kash_exec os (arg0 :: rest) w = Outcome.returned w1 ∧
        observed w1.trace = observed w.trace ++ (pre ++ [t])) ∧
    ((∀ s ∈ os.waitpid ((w.log (Event.exec (arg0 :: rest))).log
        (Event.fork (os.fork (w.log (Event.exec (arg0 :: rest)))))), terminal s = false) →
      ∃ w1, kash_exec os (arg0 :: rest) w = Outcome.blocked w1) ∧
    (∀ w1, kash_exec os (arg0 :: rest) w = Outcome.returned w1 →
      ∃ t, (observed w1.trace).getLast? = some t ∧ terminal t = true ∧
        ∀ sig, t ≠ Status.stopped sig) := by
  have hne : os.fork (w.log (Event.exec (arg0 :: rest))) ≠ 0 := by omega
  have hexec := kash_exec_external os arg0 rest w hext
  rw [if_neg hne, if_pos hfork] at hexec
  have hterm : ∀ pre t post,
      os.waitpid ((w.log (Event.exec (arg0 :: rest))).log
        (Event.fork (os.fork (w.log (Event.exec (arg0 :: rest)))))) = pre ++ t :: post →
      (∀ s ∈ pre, terminal s = false) → terminal t = true →
      ∃ w1, kash_exec os (arg0 :: rest) w = Outcome.returned w1 ∧
        observed w1.trace = observed w.trace ++ (pre ++ [t]) := by
    intro pre t post hrep hpre ht
    rw [hexec, hrep, wait_loop_terminal pre t post _ hpre ht]
    refine ⟨_, rfl, ?_⟩
    simp only [World.log, World.after_child, observed_append, observed_map_waitpid]
    simp [observed]
  refine ⟨hterm, ?_, ?_⟩
  · intro hall
    rw [hexec, wait_loop_stopped _ _ hall]
    exact ⟨_, rfl⟩
  · intro w1 hret
    rcases first_terminal (os.waitpid ((w.log (Event.exec (arg0 :: rest))).log
        (Event.fork (os.fork (w.log (Event.exec (arg0 :: rest))))))) with
      hall | ⟨pre, t, post, hrep, hpre, ht⟩
    · rw [hexec, wait_loop_stopped _ _ hall] at hret
      simp at hret
    · obtain ⟨w2, hw2, hobs⟩ := hterm pre t post hrep hpre ht
      rw [hw2] at hret
      simp only [Outcome.returned.injEq] at hret
      subst hret
      refine ⟨t, ?_, ht, ?_⟩
      · rw [hobs, ← List.append_assoc, List.getLast?_append]
        simp
      · intro sig hsig
        rw [hsig] at ht
        simp [terminal, WIFEXITED, WIFSIGNALED] at ht

/-- Witness for C7: a child reported stopped twice and then killed by signal 9; the wait
ends at the third report and the fourth is never observed. -/
theorem kash_exec_wait_witness :
    ∃ w1, kash_exec stopping_os ["sleep".toList, "9".toList] (demo_world [])
        = Outcome.returned w1 ∧
      observed w1.trace = observed (demo_world []).trace
        ++ ([Status.stopped 19, Status.stopped 19] ++ [Status.signaled 9]) :=
  (kash_exec_wait stopping_os "sleep".toList ["9".toList] (demo_world []) (by decide)
    (by decide)).1 [Status.stopped 19, Status.stopped 19] (Status.signaled 9)
      [Status.stopped 19] rfl (by decide) (by decide)

/-! ## The line reader -/

theorem getline_complete (body rest : List Char) (h : '\n' ∉ body) :
    getline (body ++ '\n' :: rest) = some (body ++ ['\n'], rest) := by
  have hp : ∀ c ∈ body, (c != '\n') = true := by
    intro c hc
    have : c ≠ '\n' := fun hcn => h (hcn ▸ hc)
    simpa using this
  have hdrop : (body ++ '\n' :: rest).dropWhile (fun c => c != '\n') = '\n' :: rest := by
    rw [List.dropWhile_append_of_pos hp]
    simp
  have htake : (body ++ '\n' :: rest).takeWhile (fun c => c != '\n') = body := by
    rw [List.takeWhile_append_of_pos hp]
    simp
  unfold getline
  cases body with
  | nil => simp
  | cons b body =>
    rw [List.cons_append] at hdrop htake ⊢
    simp only [hdrop, htake]

theorem getline_some (s l rest : List Char) (h : getline s = some (l, rest)) :
    s = l ++ rest ∧ l ≠ [] := by
  unfold getline at h
  cases s with
  | nil => simp at h
  | cons c cs =>
    simp only at h
    cases hd : (c :: cs).dropWhile (fun c => c != '\n') with
    | nil =>
      rw [hd] at h
      simp only [Option.some.injEq, Prod.mk.injEq] at h
      obtain ⟨h1, h2⟩ := h
      subst h1 h2
      simp
    | cons nl r =>
      rw [hd] at h
      simp only [Option.some.injEq, Prod.mk.injEq] at h
      obtain ⟨h1, h2⟩ := h
      subst h1 h2
      refine ⟨?_, by simp⟩
      have := List.takeWhile_append_dropWhile (fun c => c != '\n') (c :: cs)
      rw [hd] at this
      rw [List.append_assoc]
      exact this.symm

theorem getline_last (l : List Char) (hne : l ≠ []) (h : '\n' ∉ l.dropLast) :
    getline l = some (l, []) := by
  have hl : l = l.dropLast ++ [l.getLast hne] := (List.dropLast_append_getLast hne).symm
  by_cases hlast : l.getLast hne = '\n'
  · have := getline_complete l.dropLast [] h
    rw [← hlast, ← hl] at this
    exact this
  · have hall : ∀ c ∈ l, (c != '\n') = true := by
      intro c hc
      rw [hl] at hc
      rcases List.mem_append.mp hc with hc | hc
      · have : c ≠ '\n' := fun hcn => h (hcn ▸ hc)
        simpa using this
      · rw [List.mem_singleton] at hc
        rw [hc]
        simpa using hlast
    have hdrop : l.dropWhile (fun c => c != '\n') = [] := by
      rw [List.dropWhile_eq_nil_iff]
      exact hall
    unfold getline
    cases l with
    | nil => exact absurd rfl hne
    | cons c cs => simp only [hdrop]

theorem complete_line_shape (l : List Char) (h : complete_line l = true) :
    ∃ body, l = body ++ ['\n'] ∧ '\n' ∉ body := by
  unfold complete_line at h
  simp only [Bool.and_eq_true, decide_eq_true_eq, Bool.not_eq_true', List.contains_eq_any_beq,
    List.any_eq_false, beq_iff_eq] at h
  obtain ⟨h1, h2⟩ := h
  have hne : l ≠ [] := by
    intro hl
    rw [hl] at h1
    simp at h1
  refine ⟨l.dropLast, ?_, fun hmem => h2 _ hmem rfl⟩
  have hlast : l.getLast hne = '\n' := by
    have := List.getLast?_eq_getLast l hne
    rw [this] at h1
    simpa using h1
  rw [← hlast]
  exact (List.dropLast_append_getLast hne).symm

theorem input_lines_head (l : List Char) (ls : List (List Char))
    (h : input_lines_ok (l :: ls) = true) :
    getline ((l :: ls).flatten) = some (l, ls.flatten) ∧ input_lines_ok ls = true ∧ l ≠ [] := by
  cases ls with
  | nil =>
    simp only [input_lines_ok, Bool.and_eq_true, Bool.not_eq_true', List.isEmpty_eq_false,
      List.contains_eq_any_beq, List.any_eq_false, beq_iff_eq] at h
    have hne : l ≠ [] := by
      intro hl
      rw [hl] at h
      simp at h
    refine ⟨?_, rfl, hne⟩
    simp only [List.flatten_cons, List.flatten_nil, List.append_nil]
    exact getline_last l hne (fun hmem => h.2 _ hmem rfl)
  | cons l1 ls =>
    have h1 : complete_line l = true ∧ input_lines_ok (l1 :: ls) = true := by
      simpa [input_lines_ok] using h
    obtain ⟨body, rfl, hbody⟩ := complete_line_shape l h1.1
    refine ⟨?_, h1.2, by simp⟩
    rw [List.flatten_cons, List.append_assoc]
    exact getline_complete body _ hbody

theorem input_lines_length (lines : List (List Char)) (h : input_lines_ok lines = true) :
    lines.length ≤ lines.flatten.length := by
  induction lines with
  | nil => simp
  | cons l ls ih =>
    obtain ⟨_, hok, hne⟩ := input_lines_head l ls h
    have := ih hok
    have hl : 1 ≤ l.length := by
      cases l with
      | nil => exact absurd rfl hne
      | cons c cs => simp
    simp only [List.length_cons, List.flatten_cons, List.length_append]
    omega

theorem getline_none (s : List Char) (h : getline s = none) : s = [] := by
  cases s with
  | nil => rfl
  | cons c cs =>
    unfold getline at h
    simp only at h
    split at h <;> simp at h

theorem dropWhile_head (p : Char → Bool) :
    ∀ (l : List Char) (x : Char) (xs : List Char), l.dropWhile p = x :: xs → p x = false := by
  intro l
  induction l with
  | nil => intro x xs h; simp at h
  | cons a l ih =>
    intro x xs h
    by_cases ha : p a = true
    · rw [List.dropWhile_cons_of_pos ha] at h
      exact ih x xs h
    · rw [List.dropWhile_cons_of_neg ha] at h
      simp only [List.cons.injEq] at h
      rw [← h.1]
      simpa using ha

/-- A buffer either holds no newline, or is a newline-free part, a newline and a rest. -/
theorem buffer_shape (s : List Char) :
    ((∀ c ∈ s, c ≠ '\n') ∧ s.dropWhile (fun c => c != '\n') = []) ∨
    ∃ b r, s = b ++ '\n' :: r ∧ '\n' ∉ b ∧ s.takeWhile (fun c => c != '\n') = b ∧
      s.dropWhile (fun c => c != '\n') = '\n' :: r := by
  cases hd : s.dropWhile (fun c => c != '\n') with
  | nil =>
    left
    refine ⟨?_, rfl⟩
    rw [List.dropWhile_eq_nil_iff] at hd
    intro c hc
    simpa using hd c hc
  | cons x xs =>
    right
    have hx : x = '\n' := by
      have := dropWhile_head _ s x xs hd
      simpa using this
    subst hx
    refine ⟨s.takeWhile (fun c => c != '\n'), xs, ?_, ?_, rfl, rfl⟩
    · have := List.takeWhile_append_dropWhile (fun c => c != '\n') s
      rw [hd] at this
      exact this.symm
    · intro hmem
      have := List.mem_takeWhile_imp hmem
      simp at this

/-- Reading a line from an input that starts with a newline-free part `s`: the line is `s`
followed by the line read from what comes after `s`. -/
theorem getline_append (s u : List Char) (hs : ∀ c ∈ s, c ≠ '\n') :
    (∀ l rest, getline u = some (l, rest) → getline (s ++ u) = some (s ++ l, rest)) ∧
    (getline u = none → s ≠ [] → getline (s ++ u) = some (s, [])) ∧
    (getline u = none → s = [] → getline (s ++ u) = none) := by
  have hp : ∀ c ∈ s, (c != '\n') = true := fun c hc => by simpa using hs c hc
  refine ⟨?_, ?_, ?_⟩
  · intro l rest hg
    obtain ⟨hu, hl⟩ := getline_some u l rest hg
    rcases buffer_shape u with ⟨hfree, _⟩ | ⟨b, r, hb, hbn, _, _⟩
    · have hne : u ≠ [] := by
        intro h0
        rw [h0] at hg
        simp [getline] at hg
      have h1 := getline_last u hne (fun hmem => hfree _ (List.dropLast_subset u hmem) rfl)
      rw [h1] at hg
      simp only [Option.some.injEq, Prod.mk.injEq] at hg
      obtain ⟨rfl, rfl⟩ := hg
      apply getline_last
      · simp [hne]
      · intro hmem
        have hmem1 := List.dropLast_subset _ hmem
        rcases List.mem_append.mp hmem1 with hm | hm
        · exact hs _ hm rfl
        · exact hfree _ hm rfl
    · have h1 := getline_complete b r hbn
      rw [← hb, hg] at h1
      simp only [Option.some.injEq, Prod.mk.injEq] at h1
      obtain ⟨rfl, rfl⟩ := h1
      have h2 := getline_complete (s ++ b) rest (by
        intro hmem
        rcases List.mem_append.mp hmem with hm | hm
        · exact hs _ hm rfl
        · exact hbn hm)
      rw [hb]
      simpa [List.append_assoc] using h2
  · intro hg hne
    rw [getline_none u hg, List.append_nil]
    exact getline_last s hne (fun hmem => hs _ (List.dropLast_subset s hmem) rfl)
  · intro hg h0
    rw [getline_none u hg, h0]
    rfl

theorem take_eq_nil_of_pos (n : Nat) (l : List Char) (hn : 0 < n) (h : l.take n = []) :
    l = [] := by
  cases l with
  | nil => rfl
  | cons a l =>
    obtain ⟨m, rfl⟩ : ∃ m, n = m + 1 := ⟨n - 1, by omega⟩
    simp at h

/-- The buffered `getline` delivers what `getline` delivers from the unread input, within
the bound on the number of `read` calls, and changes the stream buffer and the offset
only; the input left unread is what follows the line. -/
theorem getline_loop_spec (os : OS) :
    ∀ (fuel : Nat) (w : World) (acc : List Char), w.file.length - w.offset < fuel →
      (∀ l rest, getline w.unread = some (l, rest) →
        ∃ buf off, getline_loop os fuel w acc
            = some (some (acc ++ l), { w with stdin := buf, offset := off }) ∧
          buf ++ w.file.drop off = rest) ∧
      (getline w.unread = none →
        ∃ buf off, getline_loop os fuel w acc
            = some (if acc = [] then none else some acc, { w with stdin := buf, offset := off }) ∧
          buf ++ w.file.drop off = []) := by
  intro fuel
  induction fuel with
  | zero => intro w acc h; omega
  | succ fuel ih =>
    intro w acc hfuel
    rcases buffer_shape w.stdin with ⟨hfree, hdrop⟩ | ⟨b, r, hb, hbn, htake, hdrop⟩
    · -- no newline in the buffer: it is consumed and filled again
      cases hblock : (w.file.drop w.offset).take (os.read w) with
      | nil =>
        have hrest : w.file.drop w.offset = [] :=
          take_eq_nil_of_pos _ _ (os.read_pos w) hblock
        have hun : w.unread = w.stdin := by
          unfold World.unread
          rw [hrest, List.append_nil]
        have hloop : getline_loop os (fuel + 1) w acc =
            if acc ++ w.stdin = [] then some (none, w)
            else some (some (acc ++ w.stdin), { w with stdin := [] }) := by
          rw [getline_loop]
          simp only [hdrop, hblock]
        constructor
        · intro l rest hg
          rw [hun] at hg
          have hne : w.stdin ≠ [] := by
            intro h0
            rw [h0] at hg
            simp [getline] at hg
          have h1 := getline_last w.stdin hne
            (fun hmem => hfree _ (List.dropLast_subset _ hmem) rfl)
          rw [h1] at hg
          simp only [Option.some.injEq, Prod.mk.injEq] at hg
          obtain ⟨rfl, rfl⟩ := hg
          refine ⟨[], w.offset, ?_, by simp [hrest]⟩
          rw [hloop, if_neg (by simp [hne])]
        · intro hg
          rw [hun] at hg
          have h0 : w.stdin = [] := getline_none _ hg
          refine ⟨[], w.offset, ?_, by simp [hrest]⟩
          rw [hloop, h0, List.append_nil]
          have hw : ({ w with stdin := [] } : World) = w := by
            cases w
            simp only at h0
            subst h0
            rfl
          by_cases hacc : acc = []
          · simp only [hacc, if_true]
            exact congrArg (fun x => some (none, x)) hw.symm
          · simp only [hacc, if_false]
      | cons x block =>
        have hlen : (x :: block).length ≤ (w.file.drop w.offset).length := by
          rw [← hblock]
          exact (List.take_sublist _ _).length_le
        have hlen1 : (w.file.drop w.offset).length = w.file.length - w.offset :=
          List.length_drop _ _
        have hsplit : w.file.drop w.offset
            = (x :: block) ++ w.file.drop (w.offset + (x :: block).length) := by
          have h1 := List.take_append_drop (os.read w) (w.file.drop w.offset)
          rw [hblock] at h1
          have h2 : (x :: block).length = min (os.read w) (w.file.drop w.offset).length := by
            rw [← hblock, List.length_take]
          have h3 : (w.file.drop w.offset).drop (os.read w)
              = (w.file.drop w.offset).drop ((x :: block).length) := by
            rw [h2]
            rcases Nat.le_total (os.read w) (w.file.drop w.offset).length with hle | hle
            · rw [Nat.min_eq_left hle]
            · rw [Nat.min_eq_right hle, List.drop_of_length_le hle,
                List.drop_of_length_le (Nat.le_refl _)]
          rw [h3, List.drop_drop] at h1
          exact h1.symm
        have hloop : getline_loop os (fuel + 1) w acc =
            getline_loop os fuel
              { w with stdin := x :: block, offset := w.offset + (x :: block).length }
              (acc ++ w.stdin) := by
          rw [getline_loop]
          simp only [hdrop, hblock]
        have hun1 : World.unread
            { w with stdin := x :: block, offset := w.offset + (x :: block).length }
              = w.file.drop w.offset := by
          simp only [World.unread]
          exact hsplit.symm
        have hun : w.unread = w.stdin ++ w.file.drop w.offset := rfl
        obtain ⟨ih1, _⟩ := ih
          { w with stdin := x :: block, offset := w.offset + (x :: block).length }
          (acc ++ w.stdin) (by
            simp only [List.length_cons] at hlen ⊢
            omega)
        rw [hun1] at ih1
        have hsome : ∃ l1 rest1, getline (w.file.drop w.offset) = some (l1, rest1) := by
          cases hg : getline (w.file.drop w.offset) with
          | none =>
            have := getline_none _ hg
            rw [hsplit] at this
            simp at this
          | some lr => exact ⟨lr.1, lr.2, rfl⟩
        obtain ⟨l1, rest1, hg1⟩ := hsome
        have hg2 := (getline_append w.stdin (w.file.drop w.offset) hfree).1 l1 rest1 hg1
        obtain ⟨buf, off, hres, hleft⟩ := ih1 l1 rest1 hg1
        constructor
        · intro l rest hg
          rw [hun, hg2] at hg
          simp only [Option.some.injEq, Prod.mk.injEq] at hg
          obtain ⟨rfl, rfl⟩ := hg
          refine ⟨buf, off, ?_, hleft⟩
          rw [hloop, hres, List.append_assoc]
        · intro hg
          rw [hun, hg2] at hg
          simp at hg
    · -- the buffer holds a newline: the line ends there
      have hloop : getline_loop os (fuel + 1) w acc =
          some (some (acc ++ b ++ ['\n']), { w with stdin := r }) := by
        rw [getline_loop]
        simp only [hdrop, htake]
      have hg1 : getline w.unread = some (b ++ ['\n'], r ++ w.file.drop w.offset) := by
        have := getline_complete b (r ++ w.file.drop w.offset) hbn
        unfold World.unread
        rw [hb]
        simpa [List.append_assoc] using this
      constructor
      · intro l rest hg
        rw [hg1] at hg
        simp only [Option.some.injEq, Prod.mk.injEq] at hg
        obtain ⟨rfl, rfl⟩ := hg
        exact ⟨r, w.offset, by rw [hloop, List.append_assoc], rfl⟩
      · intro hg
        rw [hg1] at hg
        simp at hg

/-- What `kash_read_line` does on an input with a line to read. -/
theorem kash_read_line_line (os : OS) (w : World) (l rest : List Char)
    (hg : getline w.unread = some (l, rest)) :
    ∃ buf off, kash_read_line os w = Except.ok (l, { w with stdin := buf, offset := off }) ∧
      buf ++ w.file.drop off = rest := by
  obtain ⟨buf, off, hres, hleft⟩ :=
    (getline_loop_spec os (w.file.length - w.offset + 1) w [] (Nat.lt_succ_self _)).1 l rest hg
  refine ⟨buf, off, ?_, hleft⟩
  unfold kash_read_line stdin_getline
  rw [hres]
  rfl

/-- What `kash_read_line` does at the end of the input: the process exits with code 1. -/
theorem kash_read_line_eof (os : OS) (w : World) (hg : w.unread = []) :
    ∃ w1, kash_read_line os w = Except.error (Outcome.exited 1 w1) ∧
      w1.stdout = w.stdout ∧ w1.trace = w.trace ∧ w1.cwd = w.cwd := by
  have hnone : getline w.unread = none := by
    rw [hg]
    rfl
  obtain ⟨buf, off, hres, _⟩ :=
    (getline_loop_spec os (w.file.length - w.offset + 1) w [] (Nat.lt_succ_self _)).2 hnone
  unfold kash_read_line stdin_getline
  rw [hres]
  simp only [if_true]
  cases os.read_error with
  | none => exact ⟨_, rfl, by simp [World.exit], by simp [World.exit], by simp [World.exit]⟩
  | some msg =>
    exact ⟨_, rfl, by simp [World.exit, World.perror, World.eprintf],
      by simp [World.exit, World.perror, World.eprintf],
      by simp [World.exit, World.perror, World.eprintf]⟩

/-- When the line is already in the stream buffer, `kash_read_line` takes it from there:
the buffer keeps what follows the line and nothing else changes. -/
theorem kash_read_line_buffered (os : OS) (w : World) (body rest1 : List Char)
    (hbody : '\n' ∉ body) (hbuf : w.stdin = body ++ '\n' :: rest1) :
    kash_read_line os w = Except.ok (body ++ ['\n'], { w with stdin := rest1 }) := by
  have hp : ∀ c ∈ body, (c != '\n') = true := by
    intro c hc
    have : c ≠ '\n' := fun hcn => hbody (hcn ▸ hc)
    simpa using this
  have hdrop : w.stdin.dropWhile (fun c => c != '\n') = '\n' :: rest1 := by
    rw [hbuf, List.dropWhile_append_of_pos hp]
    simp
  have htake : w.stdin.takeWhile (fun c => c != '\n') = body := by
    rw [hbuf, List.takeWhile_append_of_pos hp]
    simp
  unfold kash_read_line stdin_getline
  rw [getline_loop]
  simp only [hdrop, htake, List.nil_append]

/-- When the stream buffer is empty and the next `read` delivers a block that holds a
newline, `kash_read_line` returns the line up to it; the buffer keeps the rest of the
block and the offset has moved on by the length of the block. -/
theorem kash_read_line_refill (os : OS) (w : World) (body rest1 : List Char)
    (hbody : '\n' ∉ body) (hempty : w.stdin = [])
    (hblock : (w.file.drop w.offset).take (os.read w) = body ++ '\n' :: rest1) :
    kash_read_line os w = Except.ok (body ++ ['\n'],
      { w with stdin := rest1, offset := w.offset + (body ++ '\n' :: rest1).length }) := by
  have hlen : (body ++ '\n' :: rest1).length ≤ w.file.length - w.offset := by
    rw [← hblock, ← List.length_drop]
    exact (List.take_sublist _ _).length_le
  obtain ⟨k, hk⟩ : ∃ k, w.file.length - w.offset = k + 1 :=
    ⟨w.file.length - w.offset - 1, by simp at hlen; omega⟩
  obtain ⟨x, block, hx⟩ : ∃ x block, body ++ '\n' :: rest1 = x :: block := by
    cases body with
    | nil => exact ⟨_, _, rfl⟩
    | cons b body => exact ⟨_, _, rfl⟩
  have hstep : getline_loop os (k + 1 + 1) w [] =
      getline_loop os (k + 1)
        { w with stdin := x :: block, offset := w.offset + (x :: block).length } [] := by
    rw [getline_loop]
    rw [hx] at hblock
    simp only [hempty, hblock, List.dropWhile_nil, List.append_nil]
  unfold kash_read_line stdin_getline
  rw [hk, hstep, ← hx]
  have hfuel : ∀ (m : Nat) (v : World), v.stdin = body ++ '\n' :: rest1 →
      getline_loop os (m + 1) v [] = some (some (body ++ ['\n']), { v with stdin := rest1 }) := by
    intro m v hv
    have hp : ∀ c ∈ body, (c != '\n') = true := by
      intro c hc
      have : c ≠ '\n' := fun hcn => hbody (hcn ▸ hc)
      simpa using this
    rw [getline_loop]
    have hdrop : v.stdin.dropWhile (fun c => c != '\n') = '\n' :: rest1 := by
      rw [hv, List.dropWhile_append_of_pos hp]
      simp
    have htake : v.stdin.takeWhile (fun c => c != '\n') = body := by
      rw [hv, List.takeWhile_append_of_pos hp]
      simp
    simp only [hdrop, htake, List.nil_append]
  rw [hfuel k _ rfl]

/-! ## Claims about the line reader -/

/-- C8, as amended. For every line available on the input source, `kash_read_line` returns
the text of that line together with its trailing newline, changes nothing of the process
state but the stream buffer and the offset of the input, and leaves what follows the line
unread; in particular, for an empty line it returns the one-character string made of the
newline rather than signalling end-of-input. When the line is already in the stream
buffer, the buffer keeps what follows the line and the offset stays. -/
theorem kash_read_line_keeps_newline (os : OS) (w : World) (body rest : List Char)
    (hbody : '\n' ∉ body) (hin : w.unread = body ++ '\n' :: rest) :
    (∃ buf off,
      kash_read_line os w = Except.ok (body ++ ['\n'], { w with stdin := buf, offset := off }) ∧
      World.unread { w with stdin := buf, offset := off } = rest) ∧
    (body = [] →
      ∃ buf off,
        kash_read_line os w = Except.ok (['\n'], { w with stdin := buf, offset := off }) ∧
        World.unread { w with stdin := buf, offset := off } = rest) ∧
    (∀ rest1, w.stdin = body ++ '\n' :: rest1 →
      kash_read_line os w = Except.ok (body ++ ['\n'], { w with stdin := rest1 })) := by
  have hg : getline w.unread = some (body ++ ['\n'], rest) := by
    rw [hin]
    exact getline_complete body rest hbody
  have h := kash_read_line_line os w _ _ hg
  refine ⟨h, ?_, fun rest1 hbuf => kash_read_line_buffered os w body rest1 hbody hbuf⟩
  intro hb
  rw [hb] at h
  exact h

/-- Witness for C8 as amended: the inputs `"ls -l\nexit\n"` and `"\nexit\n"`, and the line
`ls -l` already in the stream buffer. -/
theorem kash_read_line_keeps_newline_witness :
    (∃ buf off,
      kash_read_line demo_os (demo_world "ls -l\nexit\n".toList)
        = Except.ok ("ls -l".toList ++ ['\n'],
            { demo_world "ls -l\nexit\n".toList with stdin := buf, offset := off }) ∧
      World.unread { demo_world "ls -l\nexit\n".toList with stdin := buf, offset := off }
        = "exit\n".toList) ∧
    (∃ buf off,
      kash_read_line demo_os (demo_world "\nexit\n".toList)
        = Except.ok (['\n'], { demo_world "\nexit\n".toList with stdin := buf, offset := off }) ∧
      World.unread { demo_world "\nexit\n".toList with stdin := buf, offset := off }
        = "exit\n".toList) ∧
    kash_read_line demo_os { demo_world [] with stdin := "ls -l\nexit\n".toList }
      = Except.ok ("ls -l".toList ++ ['\n'], { demo_world [] with stdin := "exit\n".toList }) :=
  ⟨(kash_read_line_keeps_newline demo_os (demo_world "ls -l\nexit\n".toList) "ls -l".toList
      "exit\n".toList (by decide) rfl).1,
   (kash_read_line_keeps_newline demo_os (demo_world "\nexit\n".toList) [] "exit\n".toList
      (by decide) rfl).2.1 rfl,
   (kash_read_line_keeps_newline demo_os { demo_world [] with stdin := "ls -l\nexit\n".toList }
      "ls -l".toList "exit\n".toList (by decide) rfl).2.2 "exit\n".toList rfl⟩

set_option maxRecDepth 100000 in
/-- Counterexample to C8 as stated: on the input `"ls\n"` the line `kash_read_line` returns
is `"ls\n"`, not `"ls"`, and on the empty line `"\n"` it returns `"\n"`, not the empty
string. -/
theorem kash_read_line_strips_newline_counterexample :
    (∃ w1, kash_read_line demo_os (demo_world "ls\n".toList) = Except.ok ("ls\n".toList, w1)) ∧
    (¬ ∃ w1, kash_read_line demo_os (demo_world "ls\n".toList) = Except.ok ("ls".toList, w1)) ∧
    (∃ w1, kash_read_line demo_os (demo_world "\n".toList) = Except.ok ("\n".toList, w1)) ∧
    (¬ ∃ w1, kash_read_line demo_os (demo_world "\n".toList) = Except.ok ([], w1)) := by
  have h1 : kash_read_line demo_os (demo_world "ls\n".toList)
      = Except.ok ("ls\n".toList, { demo_world "ls\n".toList with offset := 3 }) := rfl
  have h2 : kash_read_line demo_os (demo_world "\n".toList)
      = Except.ok ("\n".toList, { demo_world "\n".toList with offset := 1 }) := rfl
  refine ⟨⟨_, h1⟩, ?_, ⟨_, h2⟩, ?_⟩
  · rintro ⟨w1, hw1⟩
    rw [h1] at hw1
    simp only [Except.ok.injEq, Prod.mk.injEq] at hw1
    exact absurd hw1.1 (by decide)
  · rintro ⟨w1, hw1⟩
    rw [h2] at hw1
    simp only [Except.ok.injEq, Prod.mk.injEq] at hw1
    exact absurd hw1.1 (by decide)

/-! ## The read-eval loop -/

theorem prompts_printf_prompt (w : World) : prompts (w.printf "> ".toList) = prompts w + 1 := by
  unfold prompts World.printf
  rw [List.count_append]
  rfl

theorem main_iteration_line (os : OS) (w : World) (l rest : List Char)
    (hg : getline w.unread = some (l, rest)) :
    ∃ buf off, buf ++ w.file.drop off = rest ∧
      main_iteration os w =
        if maximal_runs (c_string l) ≠ [] then
          kash_exec os (maximal_runs (c_string l))
            { w.printf "> ".toList with stdin := buf, offset := off }
        else Outcome.returned { w.printf "> ".toList with stdin := buf, offset := off } := by
  obtain ⟨buf, off, hread, hleft⟩ := kash_read_line_line os (w.printf "> ".toList) l rest hg
  refine ⟨buf, off, hleft, ?_⟩
  unfold main_iteration
  rw [hread]
  simp only [split_tokens_eq]

theorem main_iteration_eof (os : OS) (w : World) (hg : w.unread = []) :
    ∃ w1, main_iteration os w = Outcome.exited 1 w1 ∧
      prompts w1 = prompts w + 1 ∧ w1.trace = w.trace := by
  obtain ⟨w1, hread, hout, htr, _⟩ := kash_read_line_eof os (w.printf "> ".toList) hg
  refine ⟨w1, ?_, ?_, htr⟩
  · unfold main_iteration
    rw [hread]
  · rw [← prompts_printf_prompt w]
    simp only [prompts, hout]

theorem main_returned (n : Nat) (os : OS) (w w1 : World)
    (h : main_iteration os w = Outcome.returned w1) :
    main (n + 1) os w = main n os w1 := by
  rw [main, h]

theorem main_exited (n : Nat) (os : OS) (w w1 : World) (code : Nat)
    (h : main_iteration os w = Outcome.exited code w1) :
    main (n + 1) os w = Outcome.exited code w1 := by
  rw [main, h]

/-- A command other than `exit` returns to the loop, in the shell process itself (`fork`
never returns 0) and when every child eventually terminates. -/
theorem kash_exec_returns (os : OS) (arg0 : List Char) (rest : List (List Char)) (w : World)
    (hfork : ∀ w0, os.fork w0 ≠ 0) (hwait : ∀ w0, ∃ s ∈ os.waitpid w0, terminal s = true)
    (h : arg0 ≠ "exit".toList) :
    ∃ w1, kash_exec os (arg0 :: rest) w = Outcome.returned w1 := by
  by_cases hb : arg0 ∈ builtin_names
  · rcases (mem_builtin_names arg0).mp hb with h1 | h1 | h1
    · subst h1
      rw [kash_exec_help]
      exact ⟨_, rfl⟩
    · exact absurd h1 h
    · subst h1
      rw [kash_exec_cd]
      obtain ⟨w1, hw1, _⟩ := kash_cd_returns os ("cd".toList :: rest)
        ((w.log (Event.exec ("cd".toList :: rest))).log
          (Event.builtin "cd".toList ("cd".toList :: rest)))
      exact ⟨w1, hw1⟩
  · rw [kash_exec_external os arg0 rest w hb, if_neg (hfork _)]
    by_cases hpos : os.fork (w.log (Event.exec (arg0 :: rest))) > 0
    · rw [if_pos hpos]
      rcases first_terminal (os.waitpid ((w.log (Event.exec (arg0 :: rest))).log
          (Event.fork (os.fork (w.log (Event.exec (arg0 :: rest))))))) with
        hall | ⟨pre, t, post, hrep, hpre, ht⟩
      · obtain ⟨s, hs, hterm⟩ := hwait ((w.log (Event.exec (arg0 :: rest))).log
          (Event.fork (os.fork (w.log (Event.exec (arg0 :: rest))))))
        rw [hall s hs] at hterm
        simp at hterm
      · rw [hrep, wait_loop_terminal pre t post _ hpre ht]
        exact ⟨_, rfl⟩
    · rw [if_neg hpos]
      exact ⟨_, rfl⟩

/-- The frame of `kash_exec` on a non-empty vector: one recorded entry with that vector
followed by events that are not entries; the stream buffer, the input source and the
prompts untouched, and the offset too on an input that is not seekable. -/
theorem kash_exec_frame (os : OS) (arg0 : List Char) (rest : List (List Char)) (w : World) :
    (∃ evs, (kash_exec os (arg0 :: rest) w).world.trace =
        w.trace ++ Event.exec (arg0 :: rest) :: evs ∧ ∀ e ∈ evs, ∀ a, e ≠ Event.exec a) ∧
    (kash_exec os (arg0 :: rest) w).world.stdin = w.stdin ∧
    (kash_exec os (arg0 :: rest) w).world.file = w.file ∧
    (kash_exec os (arg0 :: rest) w).world.seekable = w.seekable ∧
    prompts (kash_exec os (arg0 :: rest) w).world = prompts w ∧
    (w.seekable = false → (kash_exec os (arg0 :: rest) w).world.offset = w.offset) := by
  by_cases hb : arg0 ∈ builtin_names
  · obtain ⟨h1, h2, h3, h4, h5, h6⟩ := kash_exec_builtin_frame os arg0 rest w hb
    refine ⟨⟨[Event.builtin arg0 (arg0 :: rest)], by rw [h1], ?_⟩, h2, h3, h4, h5, h6⟩
    intro e he a
    rw [List.mem_singleton] at he
    rw [he]
    simp
  · obtain ⟨evs, h1, h2, _, h4, h5, h6, h7, h8⟩ := kash_exec_external_frame os arg0 rest w hb
    refine ⟨⟨_ :: evs, h1, ?_⟩, h4, h5, h6, by simp only [prompts, h7], h8⟩
    intro e he a
    rcases List.mem_cons.mp he with rfl | he
    · simp
    · rcases h2 e he with rfl | ⟨s, rfl⟩ <;> simp

theorem kash_exec_defined (os : OS) (arg0 : List Char) (rest : List (List Char)) (w : World) :
    ∀ w1, kash_exec os (arg0 :: rest) w ≠ Outcome.undefined w1 := by
  intro w1
  by_cases hb : arg0 ∈ builtin_names
  · rcases (mem_builtin_names arg0).mp hb with h1 | h1 | h1
    · subst h1
      rw [kash_exec_help]
      simp [kash_help]
    · subst h1
      rw [kash_exec_exit]
      simp [kash_exit, World.exit]
    · subst h1
      rw [kash_exec_cd]
      obtain ⟨w2, hw2, _⟩ := kash_cd_returns os ("cd".toList :: rest)
        ((w.log (Event.exec ("cd".toList :: rest))).log
          (Event.builtin "cd".toList ("cd".toList :: rest)))
      rw [hw2]
      simp
  · rw [kash_exec_external os arg0 rest w hb]
    by_cases h0 : os.fork (w.log (Event.exec (arg0 :: rest))) = 0
    · rw [if_pos h0]
      obtain ⟨⟨cw, hcw⟩, _⟩ := exec_child_frame os arg0 (arg0 :: rest)
        ((w.log (Event.exec (arg0 :: rest))).log
          (Event.fork (os.fork (w.log (Event.exec (arg0 :: rest))))))
      rcases hcw with hcw | hcw <;> rw [hcw] <;> simp
    · rw [if_neg h0]
      by_cases hpos : os.fork (w.log (Event.exec (arg0 :: rest))) > 0
      · rw [if_pos hpos]
        rcases first_terminal (os.waitpid ((w.log (Event.exec (arg0 :: rest))).log
            (Event.fork (os.fork (w.log (Event.exec (arg0 :: rest))))))) with
          hall | ⟨pre, t, post, hrep, hpre, ht⟩
        · rw [wait_loop_stopped _ _ hall]
          simp
        · rw [hrep, wait_loop_terminal pre t post _ hpre ht]
          simp
      · rw [if_neg hpos]
        simp

theorem exec_args_ok_of_not_exec (e : Event) (h : ∀ a, e ≠ Event.exec a) : exec_args_ok e := by
  cases e with
  | exec a => exact absurd rfl (h a)
  | builtin _ _ => trivial
  | fork _ => trivial
  | execvp _ _ => trivial
  | waitpid _ => trivial

/-- One pass of the loop: every call of `kash_exec` it makes has a non-empty vector of
non-empty tokens, and no pass runs into undefined behaviour or stays in `getline`. -/
theorem main_iteration_frame (os : OS) (w : World) :
    (∃ evs, (main_iteration os w).world.trace = w.trace ++ evs ∧ ∀ e ∈ evs, exec_args_ok e) ∧
    (∀ w1, main_iteration os w ≠ Outcome.undefined w1) := by
  cases hg : getline w.unread with
  | none =>
    obtain ⟨w1, hw1, _, htr⟩ := main_iteration_eof os w (getline_none _ hg)
    rw [hw1]
    exact ⟨⟨[], by simp [Outcome.world, htr], by simp⟩, by simp⟩
  | some lr =>
    obtain ⟨l, rest⟩ := lr
    obtain ⟨buf, off, _, hiter⟩ := main_iteration_line os w l rest hg
    rw [hiter]
    cases hruns : maximal_runs (c_string l) with
    | nil =>
      rw [if_neg (by simp)]
      exact ⟨⟨[], by simp [Outcome.world, World.printf], by simp⟩, by simp⟩
    | cons arg0 args =>
      rw [if_pos (by simp)]
      obtain ⟨⟨evs, h1, hevs⟩, _⟩ :=
        kash_exec_frame os arg0 args { w.printf "> ".toList with stdin := buf, offset := off }
      refine ⟨⟨Event.exec (arg0 :: args) :: evs, h1, ?_⟩, kash_exec_defined os arg0 args _⟩
      intro e he
      rcases List.mem_cons.mp he with rfl | he
      · have hr := runs_tokens (runs_maximal_runs _ (c_string l) (Nat.le_refl _))
        rw [hruns] at hr
        exact ⟨by simp, fun t ht => (hr t ht).1⟩
      · exact exec_args_ok_of_not_exec e (hevs e he)

/-- However many passes the loop of `main` makes, every call of `kash_exec` made on the
way has a non-empty vector of non-empty tokens, and there is no undefined behaviour. -/
theorem main_frame (n : Nat) (os : OS) :
    ∀ w : World,
      (∃ evs, (main n os w).world.trace = w.trace ++ evs ∧ ∀ e ∈ evs, exec_args_ok e) ∧
      (∀ w1, main n os w ≠ Outcome.undefined w1) := by
  induction n with
  | zero =>
    intro w
    exact ⟨⟨[], by simp [main, Outcome.world], by simp⟩, by simp [main]⟩
  | succ n ih =>
    intro w
    obtain ⟨⟨evs, htr, hevs⟩, hdef⟩ := main_iteration_frame os w
    cases hiter : main_iteration os w with
    | returned w1 =>
      obtain ⟨⟨evs1, htr1, hevs1⟩, hnu⟩ := ih w1
      rw [hiter] at htr
      simp only [Outcome.world] at htr
      rw [main_returned n os w w1 hiter]
      refine ⟨⟨evs ++ evs1, by rw [htr1, htr, List.append_assoc], ?_⟩, hnu⟩
      intro e he
      rcases List.mem_append.mp he with he | he
      · exact hevs e he
      · exact hevs1 e he
    | exited code w1 =>
      rw [hiter] at htr
      have hm : main (n + 1) os w = Outcome.exited code w1 := by rw [main, hiter]
      rw [hm]
      exact ⟨⟨evs, htr, hevs⟩, by simp⟩
    | replaced w1 =>
      rw [hiter] at htr
      have hm : main (n + 1) os w = Outcome.replaced w1 := by rw [main, hiter]
      rw [hm]
      exact ⟨⟨evs, htr, hevs⟩, by simp⟩
    | blocked w1 =>
      rw [hiter] at htr
      have hm : main (n + 1) os w = Outcome.blocked w1 := by rw [main, hiter]
      rw [hm]
      exact ⟨⟨evs, htr, hevs⟩, by simp⟩
    | undefined w1 => exact absurd hiter (hdef w1)

/-! ## The loop on an input that is not seekable -/

theorem main_iteration_nonexit (os : OS) (w : World) (l rest : List Char)
    (hfork : ∀ w0, os.fork w0 ≠ 0) (hwait : ∀ w0, ∃ s ∈ os.waitpid w0, terminal s = true)
    (hpipe : w.seekable = false)
    (hg : getline w.unread = some (l, rest)) (hl : is_exit_line l = false) :
    ∃ w1, main_iteration os w = Outcome.returned w1 ∧ w1.unread = rest ∧
      w1.seekable = false ∧ prompts w1 = prompts w + 1 := by
  obtain ⟨buf, off, hleft, hiter⟩ := main_iteration_line os w l rest hg
  rw [hiter]
  cases hruns : maximal_runs (c_string l) with
  | nil =>
    rw [if_neg (by simp)]
    exact ⟨_, rfl, hleft, hpipe, prompts_printf_prompt w⟩
  | cons arg0 args =>
    rw [if_pos (by simp)]
    have harg : arg0 ≠ "exit".toList := by
      intro h
      simp [is_exit_line, first_token, hruns, h] at hl
    obtain ⟨w1, hw1⟩ := kash_exec_returns os arg0 args
      { w.printf "> ".toList with stdin := buf, offset := off } hfork hwait harg
    obtain ⟨_, h2, h3, h4, h5, h6⟩ :=
      kash_exec_frame os arg0 args { w.printf "> ".toList with stdin := buf, offset := off }
    rw [hw1] at h2 h3 h4 h5 h6
    simp only [Outcome.world] at h2 h3 h4 h5 h6
    refine ⟨w1, hw1, ?_, by rw [h4]; exact hpipe, ?_⟩
    · unfold World.unread
      rw [h2, h3, h6 hpipe]
      exact hleft
    · rw [h5]
      exact prompts_printf_prompt w

theorem main_iteration_exit (os : OS) (w : World) (l rest : List Char)
    (hg : getline w.unread = some (l, rest)) (hl : is_exit_line l = true) :
    ∃ w1, main_iteration os w = Outcome.exited 0 w1 ∧
      prompts w1 = prompts w + 1 ∧
      w1.trace.getLast? = some (Event.builtin "exit".toList (maximal_runs (c_string l))) ∧
      (w.seekable = false → w1.unread = rest) := by
  obtain ⟨buf, off, hleft, hiter⟩ := main_iteration_line os w l rest hg
  rw [hiter]
  cases hruns : maximal_runs (c_string l) with
  | nil => simp [is_exit_line, first_token, hruns] at hl
  | cons arg0 args =>
    rw [if_pos (by simp)]
    have harg : arg0 = "exit".toList := by
      simpa [is_exit_line, first_token, hruns] using hl
    subst harg
    rw [kash_exec_exit]
    refine ⟨_, rfl, ?_, ?_, ?_⟩
    · simp only [kash_exit, World.exit, prompts, sync_stdout]
      exact prompts_printf_prompt w
    · simp [kash_exit, World.exit, World.log, World.printf]
    · intro hpipe
      simp only [kash_exit, World.exit]
      rw [sync_not_seekable _ (by simpa [World.log, World.printf] using hpipe)]
      exact hleft

theorem main_exit_pipe (os : OS)
    (hfork : ∀ w0, os.fork w0 ≠ 0) (hwait : ∀ w0, ∃ s ∈ os.waitpid w0, terminal s = true)
    (pre : List (List Char)) (l : List Char) (post : List (List Char)) :
    ∀ (w : World) (n : Nat), w.seekable = false → input_lines_ok (pre ++ l :: post) = true →
      w.unread = (pre ++ l :: post).flatten → (∀ x ∈ pre, is_exit_line x = false) →
      is_exit_line l = true → pre.length < n →
      ∃ w1, main n os w = Outcome.exited 0 w1 ∧ w1.unread = post.flatten ∧
        prompts w1 = prompts w + pre.length + 1 ∧
        w1.trace.getLast? = some (Event.builtin "exit".toList (maximal_runs (c_string l))) := by
  induction pre with
  | nil =>
    intro w n hpipe hok hin _ hl hn
    obtain ⟨m, rfl⟩ : ∃ m, n = m + 1 := ⟨n - 1, by omega⟩
    obtain ⟨hg, _, _⟩ := input_lines_head l post hok
    rw [List.nil_append] at hin
    rw [← hin] at hg
    obtain ⟨w1, hw1, hp, ht, hs⟩ := main_iteration_exit os w l _ hg hl
    exact ⟨w1, main_exited m os w w1 0 hw1, hs hpipe, by simpa using hp, ht⟩
  | cons x pre ih =>
    intro w n hpipe hok hin hpre hl hn
    obtain ⟨m, rfl⟩ : ∃ m, n = m + 1 := ⟨n - 1, by omega⟩
    rw [List.cons_append] at hok hin
    obtain ⟨hg, hok1, _⟩ := input_lines_head x (pre ++ l :: post) hok
    rw [← hin] at hg
    obtain ⟨w1, hw1, hs, hpipe1, hp⟩ := main_iteration_nonexit os w x _ hfork hwait hpipe hg
      (hpre x (List.mem_cons_self _ _))
    obtain ⟨w2, hw2, hs2, hp2, ht2⟩ := ih w1 m hpipe1 hok1 hs
      (fun y hy => hpre y (List.mem_cons_of_mem _ hy)) hl (by simp at hn; omega)
    refine ⟨w2, by rw [main_returned m os w w1 hw1]; exact hw2, hs2, ?_, ht2⟩
    rw [hp2, hp, List.length_cons]
    omega

theorem main_eof_pipe (os : OS)
    (hfork : ∀ w0, os.fork w0 ≠ 0) (hwait : ∀ w0, ∃ s ∈ os.waitpid w0, terminal s = true)
    (lines : List (List Char)) :
    ∀ (w : World) (n : Nat), w.seekable = false → input_lines_ok lines = true →
      w.unread = lines.flatten → (∀ x ∈ lines, is_exit_line x = false) → lines.length < n →
      ∃ w1, main n os w = Outcome.exited 1 w1 ∧
        prompts w1 = prompts w + lines.length + 1 := by
  induction lines with
  | nil =>
    intro w n _ _ hin _ hn
    obtain ⟨m, rfl⟩ : ∃ m, n = m + 1 := ⟨n - 1, by omega⟩
    obtain ⟨w1, hw1, hp, _⟩ := main_iteration_eof os w (by simpa using hin)
    exact ⟨w1, main_exited m os w w1 1 hw1, by simpa using hp⟩
  | cons x lines ih =>
    intro w n hpipe hok hin hall hn
    obtain ⟨m, rfl⟩ : ∃ m, n = m + 1 := ⟨n - 1, by omega⟩
    obtain ⟨hg, hok1, _⟩ := input_lines_head x lines hok
    rw [← hin] at hg
    obtain ⟨w1, hw1, hs, hpipe1, hp⟩ := main_iteration_nonexit os w x _ hfork hwait hpipe hg
      (hall x (List.mem_cons_self _ _))
    obtain ⟨w2, hw2, hp2⟩ := ih w1 m hpipe1 hok1 hs
      (fun y hy => hall y (List.mem_cons_of_mem _ hy)) (by simp at hn; omega)
    refine ⟨w2, by rw [main_returned m os w w1 hw1]; exact hw2, ?_⟩
    rw [hp2, hp, List.length_cons]
    omega

/-- On an input that is not seekable (a pipe, a terminal), in the shell process itself and
when every launched child eventually terminates: the shell exits with code 0 at the first
line whose first token is `exit`, having prompted once per line up to that one and leaving
every later line unread; and when no line has `exit` as its first token it reads all the
input and exits with code 1. -/
theorem main_exit_code_pipe (os : OS) (w : World) (lines : List (List Char))
    (hfork : ∀ w0, os.fork w0 ≠ 0) (hwait : ∀ w0, ∃ s ∈ os.waitpid w0, terminal s = true)
    (hpipe : w.seekable = false)
    (hok : input_lines_ok lines = true) (hin : w.unread = lines.flatten) :
    (∀ pre l post, lines = pre ++ l :: post → (∀ x ∈ pre, is_exit_line x = false) →
      is_exit_line l = true → ∀ n, pre.length < n →
      ∃ w1, main n os w = Outcome.exited 0 w1 ∧ w1.unread = post.flatten ∧
        prompts w1 = prompts w + pre.length + 1 ∧
        w1.trace.getLast? = some (Event.builtin "exit".toList (maximal_runs (c_string l)))) ∧
    ((∀ x ∈ lines, is_exit_line x = false) → ∀ n, lines.length < n →
      ∃ w1, main n os w = Outcome.exited 1 w1 ∧
        prompts w1 = prompts w + lines.length + 1) := by
  constructor
  · intro pre l post hlines hpre hl n hn
    subst hlines
    exact main_exit_pipe os hfork hwait pre l post w n hpipe hok hin hpre hl hn
  · intro hall n hn
    exact main_eof_pipe os hfork hwait lines w n hpipe hok hin hall hn

/-! ## The loop on a regular file, when no program is found -/

/-- One pass of the loop with the operating system `notfound_os`, for a line that names an
external command: the shell returns to the loop after the child has ended by `exit(1)`,
with the stream buffer as the read has left it and the offset where the child has put
it. -/
theorem pass_notfound (w : World) (l buf : List Char) (off : Nat) (arg0 : List Char)
    (args : List (List Char))
    (hread : kash_read_line notfound_os (w.printf "> ".toList)
      = Except.ok (l, { w.printf "> ".toList with stdin := buf, offset := off }))
    (htok : maximal_runs (c_string l) = arg0 :: args) (hext : arg0 ∉ builtin_names) :
    ∃ w1, main_iteration notfound_os w = Outcome.returned w1 ∧ w1.stdin = buf ∧
      w1.file = w.file ∧ w1.seekable = w.seekable ∧
      w1.offset = (World.sync { w with stdin := buf, offset := off }).offset ∧
      prompts w1 = prompts w + 1 := by
  have hiter : main_iteration notfound_os w =
      kash_exec notfound_os (arg0 :: args)
        { w.printf "> ".toList with stdin := buf, offset := off } := by
    unfold main_iteration
    rw [hread]
    simp only [split_tokens_eq, htok]
    rw [if_pos (by simp)]
  rw [hiter, kash_exec_external notfound_os arg0 args _ hext]
  have hfork : ∀ v, notfound_os.fork v = 1 := fun _ => rfl
  have hwait : ∀ v, notfound_os.waitpid v = [Status.exited 1] := fun _ => rfl
  rw [hfork, if_neg (by decide), if_pos (by decide), hwait]
  refine ⟨_, rfl, rfl, rfl, rfl, ?_, ?_⟩
  · simp only [World.log, World.after_child, exec_child, notfound_os, World.exit, Outcome.world,
      World.perror, World.eprintf, World.printf, World.sync]
    split <;> rfl
  · rw [← prompts_printf_prompt w]
    rfl

theorem reread_pass (w : World) (h : in_reread_cycle w) :
    ∃ w1, main_iteration notfound_os w = Outcome.returned w1 ∧ in_reread_cycle w1 ∧
      prompts w1 = prompts w + 1 := by
  obtain ⟨hfile, hseek, hstate⟩ := h
  rcases hstate with ⟨hbuf, hoff⟩ | ⟨hbuf, hoff⟩ | ⟨hbuf, hoff⟩
  · -- empty buffer: the file is read from offset 0
    have hread := kash_read_line_refill notfound_os (w.printf "> ".toList) "nope1".toList
      "nope2\nnope3\n".toList (by decide) hbuf (by
        show (w.file.drop w.offset).take 4096 = _
        rw [hfile, hoff]
        decide)
    obtain ⟨w1, hw1, h1, h2, h3, h4, h5⟩ := pass_notfound w _ _ _ "nope1".toList []
      hread (by decide) (by decide)
    refine ⟨w1, hw1, ⟨by rw [h2, hfile], by rw [h3, hseek], Or.inr (Or.inl ⟨h1, ?_⟩)⟩, h5⟩
    rw [h4]
    simp [World.sync, World.printf, hseek, hoff]
  · -- first line consumed: the second is in the buffer
    have hread := kash_read_line_buffered notfound_os (w.printf "> ".toList) "nope2".toList
      "nope3\n".toList (by decide) hbuf
    obtain ⟨w1, hw1, h1, h2, h3, h4, h5⟩ := pass_notfound w _ "nope3\n".toList w.offset
      "nope2".toList [] hread (by decide) (by decide)
    refine ⟨w1, hw1, ⟨by rw [h2, hfile], by rw [h3, hseek], Or.inr (Or.inr ⟨h1, ?_⟩)⟩, h5⟩
    rw [h4]
    simp [World.sync, World.printf, hseek, hoff]
  · -- second line consumed: the third is in the buffer
    have hread := kash_read_line_buffered notfound_os (w.printf "> ".toList) "nope3".toList
      [] (by decide) hbuf
    obtain ⟨w1, hw1, h1, h2, h3, h4, h5⟩ := pass_notfound w _ [] w.offset
      "nope3".toList [] hread (by decide) (by decide)
    refine ⟨w1, hw1, ⟨by rw [h2, hfile], by rw [h3, hseek], Or.inl ⟨h1, ?_⟩⟩, h5⟩
    rw [h4]
    simp [World.sync, World.printf, hoff]

theorem reread_for_ever (n : Nat) :
    ∀ w, in_reread_cycle w →
      ∃ w1, main n notfound_os w = Outcome.returned w1 ∧ in_reread_cycle w1 ∧
        prompts w1 = prompts w + n := by
  induction n with
  | zero =>
    intro w h
    exact ⟨w, rfl, h, rfl⟩
  | succ n ih =>
    intro w h
    obtain ⟨w1, hw1, hc1, hp1⟩ := reread_pass w h
    obtain ⟨w2, hw2, hc2, hp2⟩ := ih w1 hc1
    refine ⟨w2, by rw [main_returned n notfound_os w w1 hw1]; exact hw2, hc2, ?_⟩
    rw [hp2, hp1]
    omega

set_option maxRecDepth 100000 in
/-- The input `help`, `cd /tmp`, `exit`, from a pipe and from a regular file alike: the
shell prints the help text, changes the directory and exits with code 0 at its third
prompt. -/
theorem main_help_cd_exit :
    main 3 demo_os (demo_world "help\ncd /tmp\nexit\n".toList)
      = Outcome.exited 0
          { demo_world "help\ncd /tmp\nexit\n".toList with
            offset := 18, cwd := "/tmp".toList,
            stdout := ["> ".toList, helptext, "> ".toList, "> ".toList],
            trace := [Event.exec ["help".toList], Event.builtin "help".toList ["help".toList],
              Event.exec ["cd".toList, "/tmp".toList],
              Event.builtin "cd".toList ["cd".toList, "/tmp".toList],
              Event.exec ["exit".toList], Event.builtin "exit".toList ["exit".toList]] } ∧
    (∃ w1, main 3 demo_os (file_world "help\ncd /tmp\nexit\n".toList) = Outcome.exited 0 w1 ∧
      w1.cwd = "/tmp".toList ∧ prompts w1 = 3 ∧ helptext ∈ w1.stdout) := by
  refine ⟨by decide, ?_⟩
  have h : main 3 demo_os (file_world "help\ncd /tmp\nexit\n".toList)
      = Outcome.exited 0
          { file_world "help\ncd /tmp\nexit\n".toList with
            offset := 18, cwd := "/tmp".toList,
            stdout := ["> ".toList, helptext, "> ".toList, "> ".toList],
            trace := [Event.exec ["help".toList], Event.builtin "help".toList ["help".toList],
              Event.exec ["cd".toList, "/tmp".toList],
              Event.builtin "cd".toList ["cd".toList, "/tmp".toList],
              Event.exec ["exit".toList], Event.builtin "exit".toList ["exit".toList]] } := by
    decide
  exact ⟨_, h, rfl, by decide, by simp⟩

/-! ## Claims about the read-eval loop -/

set_option maxRecDepth 100000 in
/-- C5 does not hold of the code. The shell is started with a regular file as its input
that holds the lines `nope1`, `nope2`, `nope3`; none of them names a program, so each child
ends by `exit(1)` and is reported exited: every child terminates and no line has `exit`
as its first token. The claim says that the shell exits with code 1 when the input has
ended. It does not: after any number `n` of passes the loop is still running and has
prompted `n` times; the fourth pass dispatches `nope1` again, because each `exit(1)` of a
child has moved the shared offset of the file back, from 18 to 6 and then to 0. On a pipe
delivering the same bytes the shell exits with code 1 at its fourth prompt. -/
theorem main_rereads_file :
    (∀ n, ∃ w1, main n notfound_os (file_world "nope1\nnope2\nnope3\n".toList)
        = Outcome.returned w1 ∧ prompts w1 = n) ∧
    dispatched (main 4 notfound_os (file_world "nope1\nnope2\nnope3\n".toList)).world.trace
      = [["nope1".toList], ["nope2".toList], ["nope3".toList], ["nope1".toList]] ∧
    ((main 1 notfound_os (file_world "nope1\nnope2\nnope3\n".toList)).world.offset = 6 ∧
     (main 2 notfound_os (file_world "nope1\nnope2\nnope3\n".toList)).world.offset = 0) ∧
    (∃ w1, main 4 notfound_os (demo_world "nope1\nnope2\nnope3\n".toList)
        = Outcome.exited 1 w1 ∧ prompts w1 = 4) := by
  refine ⟨?_, by decide, ⟨by decide, by decide⟩, ?_⟩
  · intro n
    obtain ⟨w1, hw1, _, hp⟩ := reread_for_ever n (file_world "nope1\nnope2\nnope3\n".toList)
      ⟨rfl, rfl, Or.inl ⟨rfl, rfl⟩⟩
    exact ⟨w1, hw1, by rw [hp]; simp [prompts, file_world, demo_world]⟩
  · obtain ⟨w1, hw1, hp⟩ :=
      (main_exit_code_pipe notfound_os (demo_world "nope1\nnope2\nnope3\n".toList)
        ["nope1\n".toList, "nope2\n".toList, "nope3\n".toList]
        (fun _ => by simp [notfound_os, demo_os])
        (fun _ => ⟨Status.exited 1, by simp [notfound_os], rfl⟩)
        rfl (by decide) rfl).2 (by decide) 4 (by decide)
    exact ⟨w1, hw1, by rw [hp]; rfl⟩

/-- C9. Invariant of the read-eval loop: every call of `kash_exec` made by a pass through
the loop, and by any number of passes of the loop of `main`, has a non-empty argument
vector whose tokens are all non-empty; and when the line read is empty or
whitespace-only, the pass only writes the prompt and consumes the line: no call of
`kash_exec`, hence no builtin handler and no process, the working directory unchanged,
and the loop goes on to the next prompt. -/
theorem main_exec_invariant (os : OS) (w : World) :
    (∃ evs, (main_iteration os w).world.trace = w.trace ++ evs ∧ ∀ e ∈ evs, exec_args_ok e) ∧
    (∀ l rest, getline w.unread = some (l, rest) → (∀ c ∈ l, c ∈ whitespace) →
      ∃ buf off,
        main_iteration os w
          = Outcome.returned
              { w with stdin := buf, offset := off, stdout := w.stdout ++ ["> ".toList] } ∧
        World.unread { w with stdin := buf, offset := off } = rest) ∧
    (∀ body rest1, w.stdin = body ++ '\n' :: rest1 → '\n' ∉ body →
      (∀ c ∈ body, c ∈ whitespace) →
      main_iteration os w
        = Outcome.returned { w with stdin := rest1, stdout := w.stdout ++ ["> ".toList] }) ∧
    (∀ n, (∃ evs, (main n os w).world.trace = w.trace ++ evs ∧ ∀ e ∈ evs, exec_args_ok e) ∧
      ∀ w1, main n os w ≠ Outcome.undefined w1) := by
  refine ⟨(main_iteration_frame os w).1, ?_, ?_, fun n => main_frame n os w⟩
  · intro l rest hg hblank
    obtain ⟨buf, off, hleft, hiter⟩ := main_iteration_line os w l rest hg
    have : maximal_runs (c_string l) = [] :=
      maximal_runs_blank _ (fun c hc => hblank c (List.takeWhile_subset _ hc))
    rw [this, if_neg (by simp)] at hiter
    exact ⟨buf, off, hiter, hleft⟩
  · intro body rest1 hbuf hbody hblank
    have hread := kash_read_line_buffered os (w.printf "> ".toList) body rest1 hbody hbuf
    have hruns : maximal_runs (c_string (body ++ ['\n'])) = [] := by
      apply maximal_runs_blank
      intro c hc
      have hc1 := List.takeWhile_subset _ hc
      rcases List.mem_append.mp hc1 with hm | hm
      · exact hblank c hm
      · rw [List.mem_singleton] at hm
        rw [hm]
        decide
    unfold main_iteration
    rw [hread]
    simp only [split_tokens_eq, hruns]
    rfl

set_option maxRecDepth 100000 in
/-- Witness for C9: on the input `"  \t \nls -l\n"` the first pass only prompts, and in the
whole run `kash_exec` is called once, with the vector `["ls", "-l"]`. -/
theorem main_exec_invariant_witness :
    (∃ buf off,
      main_iteration demo_os (demo_world "  \t \nls -l\n".toList)
        = Outcome.returned
            { demo_world "  \t \nls -l\n".toList with
              stdin := buf, offset := off, stdout := [] ++ ["> ".toList] } ∧
      World.unread { demo_world "  \t \nls -l\n".toList with stdin := buf, offset := off }
        = "ls -l\n".toList) ∧
    main_iteration demo_os { demo_world [] with stdin := "  \t \nls -l\n".toList }
      = Outcome.returned
          { demo_world [] with stdin := "ls -l\n".toList, stdout := [] ++ ["> ".toList] } ∧
    (main 3 demo_os (demo_world "  \t \nls -l\n".toList)).world.trace
      = [Event.exec ["ls".toList, "-l".toList], Event.fork 1,
          Event.waitpid (Status.exited 0)] :=
  ⟨(main_exec_invariant demo_os (demo_world "  \t \nls -l\n".toList)).2.1
      "  \t \n".toList "ls -l\n".toList (by decide) (by decide),
   (main_exec_invariant demo_os { demo_world [] with stdin := "  \t \nls -l\n".toList }).2.2.1
      "  \t ".toList "ls -l\n".toList rfl (by decide) (by decide),
   by decide⟩

end Kash
